import Mathlib

/-! # The `toy` front end of `src/toy/toy.cpp`

A shallow embedding of the lexer (`get_token`), the recursive-descent parser
(`base_parser` ... `func_defn_parser`), the code generator (`codeGen` of every
AST class) and the top-level `driver`, followed by the properties proved about
them.

Conventions of the embedding.

* The input file is a `List Char`; `fgetc` yields the code of the next
  character, or `EOF = -1` once the list is empty.
* The globals of `toy.cpp` (`source`, the function-local static `lastChar`,
  `identifier_string`, `numeric_val`, `current_token`, `module_Ob`,
  `named_Values`) are fields of explicit state records.
* The parser functions `base_parser`, `expression_parser`, ... of the source
  are named `base_parser_fn`, `expression_parser_fn`, ... here.
* Recursive functions of the parser take a fuel argument and return `none`
  only when the fuel runs out; a null pointer result is the inner `none`.
* LLVM itself is not part of the repository.  The module is a list of
  functions, a function is a name, its number of arguments and its basic
  blocks, and an IR value is the symbolic term built by the `IRBuilder` calls.
-/

namespace Toy

/-! ## Tokens and character classes -/

/-- The `enum Token_Type`. -/
def EOF_TOKEN : Int := 0
def NUMERIC_TOKEN : Int := 1
def IDENTIFIER_TOKEN : Int := 2
def PARAN_TOKEN : Int := 3
def DEF_TOKEN : Int := 4

/-- The `EOF` of `<cstdio>`. -/
def EOF : Int := -1

/-- The function `isspace` in the "C" locale: space, `\t`, `\n`, `\v`, `\f`, `\r`. -/
def isspace (c : Int) : Bool := c == 32 || (9 ≤ c && c ≤ 13)

/-- The function `isdigit`. -/
def isdigit (c : Int) : Bool := 48 ≤ c && c ≤ 57

/-- The function `isalpha` in the "C" locale. -/
def isalpha (c : Int) : Bool := (65 ≤ c && c ≤ 90) || (97 ≤ c && c ≤ 122)

/-- The function `isalnum`. -/
def isalnum (c : Int) : Bool := isalpha c || isdigit c

/-- The function `isascii`. -/
def isascii (c : Int) : Bool := 0 ≤ c && c ≤ 127

/-- The character with code `c`, as appended to a `std::string`. -/
def toChar (c : Int) : Char := Char.ofNat c.toNat

/-! ## Lexer -/

/-- The lexer's globals: the unread part of `source`, the static `lastChar`
of `get_token`, `identifier_string` and `numeric_val`. -/
structure LexState where
  source : List Char
  lastChar : Int
  identifier_string : String
  numeric_val : Int
deriving DecidableEq

/-- The function `fgetc(source)`. -/
def fgetc : List Char → Int × List Char
  | [] => (EOF, [])
  | c :: cs => ((c.toNat : Int), cs)

/-- The loop `while(isspace(lastChar)) lastChar=fgetc(source);` -/
def skipSpaces : List Char → Int → Int × List Char
  | [], lastChar => if isspace lastChar then (EOF, []) else (lastChar, [])
  | c :: cs, lastChar =>
    if isspace lastChar then skipSpaces cs (c.toNat : Int) else (lastChar, c :: cs)

/-- The loop `while(isalnum((lastChar=fgetc(source)))) identifier_string+=lastChar;` -/
def readIdentifier : List Char → String → String × Int × List Char
  | [], ident => (ident, EOF, [])
  | c :: cs, ident =>
    if isalnum (c.toNat : Int) then readIdentifier cs (ident.push (toChar (c.toNat : Int)))
    else (ident, (c.toNat : Int), cs)

/-- The loop `do{ numStr+=lastChar; lastChar=fgetc(source); }while(isdigit(lastChar));`
The loop is entered with the body about to run on `lastChar`. -/
def readNumber : List Char → Int → String → String × Int × List Char
  | [], lastChar, numStr => (numStr.push (toChar lastChar), EOF, [])
  | c :: cs, lastChar, numStr =>
    if isdigit (c.toNat : Int) then readNumber cs (c.toNat : Int) (numStr.push (toChar lastChar))
    else (numStr.push (toChar lastChar), (c.toNat : Int), cs)

/-- The loop `do{ lastChar=fgetc(source); }while(lastChar!=EOF && lastChar!='\n' && lastChar!='\r');` -/
def skipComment : List Char → Int × List Char
  | [] => (EOF, [])
  | c :: cs =>
    if (c.toNat : Int) != 10 && (c.toNat : Int) != 13 then skipComment cs
    else ((c.toNat : Int), cs)

/-- Decimal value of a string of digits. -/
def decimalValue (numStr : String) : Nat :=
  numStr.data.foldl (fun acc c => 10 * acc + (c.toNat - 48)) 0

/-- The statement `numeric_val=strtod(numStr.c_str(), 0);` for a string of digits: the
`double` is converted to `int`.  Values below `2^31` are represented exactly;
beyond the `int` range the conversion is not defined by the language, and the
embedding takes `INT_MIN`, as the x86 conversion instruction does. -/
def strtod_int (numStr : String) : Int :=
  if decimalValue numStr < 2 ^ 31 then (decimalValue numStr : Int) else -(2 ^ 31)

/-- The function `get_token`, with fuel for the one recursive call `return get_token();`
made after a comment.  Every such call has consumed a character, so
`source.length + 1` is enough fuel (see `get_token`). -/
def get_token_fuel : Nat → LexState → Int × LexState
  | 0, s => (EOF_TOKEN, s)
  | fuel + 1, s =>
    let (lastChar, src) := skipSpaces s.source s.lastChar
    if isalpha lastChar then
      let (ident, lastChar1, src1) := readIdentifier src (String.singleton (toChar lastChar))
      let s1 : LexState := { s with source := src1, lastChar := lastChar1, identifier_string := ident }
      if ident == "def" then (DEF_TOKEN, s1) else (IDENTIFIER_TOKEN, s1)
    else if isdigit lastChar then
      let (numStr, lastChar1, src1) := readNumber src lastChar ""
      (NUMERIC_TOKEN, { s with source := src1, lastChar := lastChar1, numeric_val := strtod_int numStr })
    else
      let afterComment : Int × List Char :=
        if lastChar == 35 then skipComment src else (lastChar, src)
      if lastChar == 35 && afterComment.1 != EOF then
        get_token_fuel fuel { s with source := afterComment.2, lastChar := afterComment.1 }
      else if afterComment.1 == EOF then
        (EOF_TOKEN, { s with source := afterComment.2, lastChar := afterComment.1 })
      else
        let (lastChar1, src1) := fgetc afterComment.2
        (afterComment.1, { s with source := src1, lastChar := lastChar1 })

/-- The function `get_token()`. -/
def get_token (s : LexState) : Int × LexState :=
  get_token_fuel (s.source.length + 1) s

/-! ## Abstract syntax -/

/-- The expression classes derived from `BaseAST`: `VariableAST`, `NumericAST`,
`BinaryAST` and `FunctionCallAST`, with their data members. -/
inductive BaseAST where
  | VariableAST (var_name : String)
  | NumericAST (numeric_val : Int)
  | BinaryAST (bin_operator : String) (LHS RHS : BaseAST)
  | FunctionCallAST (function_callee : String) (function_arguments : List BaseAST)

/-- The class `FunctionDeclAST`. -/
structure FunctionDeclAST where
  func_name : String
  arguments : List String
deriving DecidableEq

/-- The class `FunctionDefnAST`. -/
structure FunctionDefnAST where
  func_decl : FunctionDeclAST
  body : BaseAST

/-! ## Parser -/

/-- The lexer state together with `current_token`. -/
structure ParserState where
  lex : LexState
  current_token : Int
deriving DecidableEq

/-- The function `next_token()`. -/
def next_token (s : ParserState) : ParserState :=
  { lex := (get_token s.lex).2, current_token := (get_token s.lex).1 }

/-- The state of `main` before `next_token()` is first called: nothing read,
`lastChar` holding its initial `' '`. -/
def initialState (input : List Char) : ParserState :=
  { lex := { source := input, lastChar := 32, identifier_string := "", numeric_val := 0 },
    current_token := 0 }

/-- The function `std::to_string(int)`. -/
def to_string (n : Int) : String := toString n

/-- The table `operator_precedence` as filled by `init_precedence()`; a key
that is absent reads as `0`. -/
def operator_precedence (c : Int) : Int :=
  if c = 45 then 1        -- '-'
  else if c = 43 then 2   -- '+'
  else if c = 47 then 3   -- '/'
  else if c = 42 then 4   -- '*'
  else 0

/-- The function `getBinOpPrecedence()`. -/
def getBinOpPrecedence (s : ParserState) : Int :=
  if !isascii s.current_token then -1
  else
    let tokPrec := operator_precedence s.current_token
    if tokPrec ≤ 0 then -1 else tokPrec

/-- The function `numeric_parser()`. -/
def numeric_parser_fn (s : ParserState) : Option BaseAST × ParserState :=
  (some (BaseAST.NumericAST s.lex.numeric_val), next_token s)

mutual

/-- The function `base_parser()`. -/
def base_parser_fn : Nat → ParserState → Option (Option BaseAST × ParserState)
  | 0, _ => none
  | fuel + 1, s =>
    if s.current_token = IDENTIFIER_TOKEN then identifier_parser_fn fuel s
    else if s.current_token = NUMERIC_TOKEN then some (numeric_parser_fn s)
    else if s.current_token = 40 then paran_parser_fn fuel s
    else some (none, s)

/-- The function `identifier_parser()`. -/
def identifier_parser_fn : Nat → ParserState → Option (Option BaseAST × ParserState)
  | 0, _ => none
  | fuel + 1, s =>
    let idName := s.lex.identifier_string
    let s1 := next_token s
    if s1.current_token ≠ 40 then some (some (BaseAST.VariableAST idName), s1)
    else
      let s2 := next_token s1
      if s2.current_token ≠ 41 then
        match identifier_args fuel [] s2 with
        | none => none
        | some (none, s3) => some (none, s3)
        | some (some args, s3) => some (some (BaseAST.FunctionCallAST idName args), next_token s3)
      else some (some (BaseAST.FunctionCallAST idName []), next_token s2)

/-- The `while(1)` loop of `identifier_parser()` collecting `args`; it is left
by `break` with the arguments, or by `return 0`. -/
def identifier_args : Nat → List BaseAST → ParserState →
    Option (Option (List BaseAST) × ParserState)
  | 0, _, _ => none
  | fuel + 1, args, s =>
    match expression_parser_fn fuel s with
    | none => none
    | some (none, s1) => some (none, s1)
    | some (some arg, s1) =>
      if s1.current_token = 41 then some (some (args ++ [arg]), s1)
      else if s1.current_token ≠ 44 then some (none, s1)
      else identifier_args fuel (args ++ [arg]) (next_token s1)

/-- The function `expression_parser()`. -/
def expression_parser_fn : Nat → ParserState → Option (Option BaseAST × ParserState)
  | 0, _ => none
  | fuel + 1, s =>
    match base_parser_fn fuel s with
    | none => none
    | some (none, s1) => some (none, s1)
    | some (some LHS, s1) => binary_op_parser_fn fuel 0 LHS s1

/-- The function `binary_op_parser(old_prec, LHS)`; one unfolding is one turn of its
`while(1)` loop. -/
def binary_op_parser_fn : Nat → Int → BaseAST → ParserState →
    Option (Option BaseAST × ParserState)
  | 0, _, _, _ => none
  | fuel + 1, old_prec, LHS, s =>
    let operator_prec := getBinOpPrecedence s
    if operator_prec < old_prec then some (some LHS, s)
    else
      let binOp := s.current_token
      let s1 := next_token s
      match base_parser_fn fuel s1 with
      | none => none
      | some (none, s2) => some (none, s2)
      | some (some rhs, s2) =>
        let next_prec := getBinOpPrecedence s2
        if operator_prec < next_prec then
          match binary_op_parser_fn fuel (operator_prec + 1) rhs s2 with
          | none => none
          | some (none, s3) => some (none, s3)
          | some (some rhs1, s3) =>
            binary_op_parser_fn fuel old_prec (BaseAST.BinaryAST (to_string binOp) LHS rhs1) s3
        else
          binary_op_parser_fn fuel old_prec (BaseAST.BinaryAST (to_string binOp) LHS rhs) s2

/-- The function `paran_parser()`. -/
def paran_parser_fn : Nat → ParserState → Option (Option BaseAST × ParserState)
  | 0, _ => none
  | fuel + 1, s =>
    let s1 := next_token s
    match expression_parser_fn fuel s1 with
    | none => none
    | some (none, s2) => some (none, s2)
    | some (some v, s2) =>
      if s2.current_token ≠ 41 then some (none, s2)
      else some (some v, s2)

end

/-- The loop `while(next_token()==IDENTIFIER_TOKEN)` of `func_decl_parser()`
filling `function_argument_names`. -/
def func_decl_args : Nat → List String → ParserState → Option (List String × ParserState)
  | 0, _, _ => none
  | fuel + 1, names, s =>
    let s1 := next_token s
    if s1.current_token = IDENTIFIER_TOKEN then
      func_decl_args fuel (names ++ [s1.lex.identifier_string]) s1
    else some (names, s1)

/-- The function `func_decl_parser()`. -/
def func_decl_parser_fn (fuel : Nat) (s : ParserState) :
    Option (Option FunctionDeclAST × ParserState) :=
  if s.current_token ≠ IDENTIFIER_TOKEN then some (none, s)
  else
    let fnName := s.lex.identifier_string
    let s1 := next_token s
    if s1.current_token ≠ 40 then some (none, s1)
    else
      match func_decl_args fuel [] s1 with
      | none => none
      | some (function_argument_names, s2) =>
        if s2.current_token ≠ 41 then some (none, s2)
        else some (some { func_name := fnName, arguments := function_argument_names },
                   next_token s2)

/-- The function `func_defn_parser()`. -/
def func_defn_parser_fn (fuel : Nat) (s : ParserState) :
    Option (Option FunctionDefnAST × ParserState) :=
  let s1 := next_token s
  match func_decl_parser_fn fuel s1 with
  | none => none
  | some (none, s2) => some (none, s2)
  | some (some decl, s2) =>
    match expression_parser_fn fuel s2 with
    | none => none
    | some (none, s3) => some (none, s3)
    | some (some body, s3) => some (some { func_decl := decl, body := body }, s3)

/-- The function `top_level_parser()`. -/
def top_level_parser_fn (fuel : Nat) (s : ParserState) :
    Option (Option FunctionDefnAST × ParserState) :=
  match expression_parser_fn fuel s with
  | none => none
  | some (none, s1) => some (none, s1)
  | some (some E, s1) =>
    some (some { func_decl := { func_name := "", arguments := [] }, body := E }, s1)

/-! ## The IR module -/

/-- An `llvm::Value*` produced by the generator, as the term the `IRBuilder`
calls build: a 32-bit constant, the `idx`-th argument of the function being
defined, the result of `CreateAdd`, `CreateSub`, `CreateMul`, `CreateUDiv`, or
of `CreateCall` on the function named `callee`.  Names of values other than
functions (`setName`, `"addtmp"`, ...) are labels and are left out. -/
inductive Value where
  | ConstantInt (n : Int)
  | Argument (idx : Nat)
  | Add (left right : Value)
  | Sub (left right : Value)
  | Mul (left right : Value)
  | UDiv (left right : Value)
  | Call (callee : String) (args : List Value)

/-- An `llvm::BasicBlock`: its label and, once `CreateRet` has run, the value
returned; the instructions computing that value are those of the term. -/
structure BasicBlock where
  label : String
  ret : Option Value

/-- An `llvm::Function`: name (empty for an unnamed function), number of
`i32` arguments, and basic blocks (none for a declaration). -/
structure Function where
  name : String
  arg_size : Nat
  blocks : List BasicBlock

/-- The call `f->empty()`. -/
def Function.empty (f : Function) : Bool := f.blocks.isEmpty

/-- The functions of `module_Ob`, in order of creation.  A function is
referred to by its position. -/
abbrev Module := List Function

/-- The first function of the list named `name`, with its position. -/
def findFunction (name : String) : List Function → Option (Nat × Function)
  | [] => none
  | f :: fs =>
    if f.name = name then some (0, f)
    else (findFunction name fs).map (fun r => (r.1 + 1, r.2))

/-- The call `module_Ob->getFunction(name)`: the function of that name in the module's
symbol table, or null.  Unnamed functions are not in the symbol table. -/
def getFunction (m : Module) (name : String) : Option (Nat × Function) :=
  if name = "" then none else findFunction name m

/-- Why a `codeGen` returned a null pointer: each constructor is one
`return 0` of the generator (for `VariableAST`, the null read from
`named_Values`); a caller that passes a null result on keeps the reason. -/
inductive GenError where
  | unboundVariable
  | unsupportedOperator
  | redefinition
  | parameterCountMismatch
deriving DecidableEq

/-- Result of a `codeGen`: a value, a null pointer, or `undefined` when
`builder.CreateCall` was reached with a null `calleeF`; LLVM reads the callee's
function type through that pointer, so what the program does from there on is
not defined. -/
inductive GenResult (α : Type) where
  | ok (v : α)
  | null (reason : GenError)
  | undefined

/-- The generator's globals: `module_Ob` and `named_Values`.  The map is a list
of bindings, the first binding of a name being its current one. -/
structure CodeGenState where
  module_Ob : Module
  named_Values : List (String × Value)

/-! ## Code generator -/

/-- The function `atoi` on the digits of a string (after an optional sign). -/
def atoi (str : String) : Int :=
  match str.data with
  | '-' :: ds => -((decimalValue ⟨ds.takeWhile Char.isDigit⟩ : Nat) : Int)
  | '+' :: ds => ((decimalValue ⟨ds.takeWhile Char.isDigit⟩ : Nat) : Int)
  | ds => ((decimalValue ⟨ds.takeWhile Char.isDigit⟩ : Nat) : Int)

mutual

/-- The method `codeGen()` of the classes derived from `BaseAST`, in the module `m` with
symbol table `nv`. -/
def BaseAST.codeGen (m : Module) (nv : List (String × Value)) : BaseAST → GenResult Value
  | .NumericAST numeric_val => .ok (.ConstantInt numeric_val)
  | .VariableAST var_name =>
    match nv.lookup var_name with
    | some v => .ok v
    | none => .null .unboundVariable
  | .BinaryAST bin_operator LHS RHS =>
    match BaseAST.codeGen m nv LHS with
    | .undefined => .undefined
    | .null e =>
      match BaseAST.codeGen m nv RHS with
      | .undefined => .undefined
      | _ => .null e
    | .ok left =>
      match BaseAST.codeGen m nv RHS with
      | .undefined => .undefined
      | .null e => .null e
      | .ok right =>
        if atoi bin_operator = 43 then .ok (.Add left right)
        else if atoi bin_operator = 45 then .ok (.Sub left right)
        else if atoi bin_operator = 42 then .ok (.Mul left right)
        else if atoi bin_operator = 47 then .ok (.UDiv left right)
        else .null .unsupportedOperator
  | .FunctionCallAST function_callee function_arguments =>
    let calleeF := getFunction m function_callee
    match BaseAST.codeGenArgs m nv function_arguments with
    | .undefined => .undefined
    | .null e => .null e
    | .ok argsV =>
      match calleeF with
      | none => .undefined
      | some _ => .ok (.Call function_callee argsV)

/-- The loop of `FunctionCallAST::codeGen` over `function_arguments`, stopping
at the first null. -/
def BaseAST.codeGenArgs (m : Module) (nv : List (String × Value)) :
    List BaseAST → GenResult (List Value)
  | [] => .ok []
  | a :: as =>
    match BaseAST.codeGen m nv a with
    | .undefined => .undefined
    | .null e => .null e
    | .ok v =>
      match BaseAST.codeGenArgs m nv as with
      | .undefined => .undefined
      | .null e => .null e
      | .ok vs => .ok (v :: vs)

end

/-- The loop at the end of `FunctionDeclAST::codeGen`:
`named_Values[arguments[idx]]=arg_it` for `idx` from `idx` on. -/
def bindArguments : List String → Nat → List (String × Value) → List (String × Value)
  | [], _, nv => nv
  | a :: as, idx, nv => bindArguments as (idx + 1) ((a, Value.Argument idx) :: nv)

/-- The method `FunctionDeclAST::codeGen()`.  `Function::Create` keeps `func_name` for the
new function unless the module already has a function of that name; in that
case the new function got another name, is erased again, and the function
already there is looked up. -/
def FunctionDeclAST.codeGen (d : FunctionDeclAST) (s : CodeGenState) :
    Except GenError Nat × CodeGenState :=
  match getFunction s.module_Ob d.func_name with
  | none =>
    (.ok s.module_Ob.length,
     { module_Ob := s.module_Ob ++
         [{ name := d.func_name, arg_size := d.arguments.length, blocks := [] }],
       named_Values := bindArguments d.arguments 0 s.named_Values })
  | some (f, fn) =>
    if !fn.empty then (.error .redefinition, s)
    else if fn.arg_size ≠ d.arguments.length then (.error .parameterCountMismatch, s)
    else (.ok f, { s with named_Values := bindArguments d.arguments 0 s.named_Values })

/-- The call `llvm::BasicBlock::Create(context, "enrty", theFunction)`. -/
def BasicBlock_Create (label : String) (f : Nat) (m : Module) : Module :=
  List.modify (fun fn => { fn with blocks := fn.blocks ++ [{ label := label, ret := none }] }) f m

/-- The call `builder.CreateRet(retVal)` with the insert point at the end of the last
block of function `f`. -/
def CreateRet (retVal : Value) (f : Nat) (m : Module) : Module :=
  List.modify (fun fn =>
    let last := fn.blocks.length - 1
    { fn with blocks := List.modify (fun b => { b with ret := some retVal }) last fn.blocks }) f m

/-- The call `theFunction->eraseFromParent()`. -/
def eraseFromParent (f : Nat) (m : Module) : Module := m.eraseIdx f

/-- The method `FunctionDefnAST::codeGen()`. -/
def FunctionDefnAST.codeGen (fd : FunctionDefnAST) (s : CodeGenState) :
    GenResult Nat × CodeGenState :=
  let s0 : CodeGenState := { s with named_Values := [] }
  match fd.func_decl.codeGen s0 with
  | (.error e, s1) => (.null e, s1)
  | (.ok theFunction, s1) =>
    let m2 := BasicBlock_Create "enrty" theFunction s1.module_Ob
    match fd.body.codeGen m2 s1.named_Values with
    | .ok retVal => (.ok theFunction, { s1 with module_Ob := CreateRet retVal theFunction m2 })
    | .null e => (.null e, { s1 with module_Ob := eraseFromParent theFunction m2 })
    | .undefined => (.undefined, { s1 with module_Ob := m2 })

/-! ## Driver -/

/-- What became of one unit handled by `handleDefn` or `handleTopExpression`:
the parser returned null, or `codeGen` ran on the parsed definition and
returned a function or null. -/
inductive UnitResult where
  | parseFailed
  | generated (unit : FunctionDefnAST)
  | notGenerated (unit : FunctionDefnAST) (reason : GenError)

/-- The whole program state seen by `driver`, with the record of the units
handled so far. -/
structure ProgramState where
  parser : ParserState
  gen : CodeGenState
  units : List UnitResult

/-- How a run of `driver` ends: it returns at `EOF_TOKEN`, or a `codeGen`
reached `CreateCall` with a null callee. -/
inductive Outcome where
  | returned (s : ProgramState)
  | undefined (s : ProgramState)

/-- The common part of `handleDefn()` and `handleTopExpression()`: `codeGen`
on a parsed definition, `next_token()` when there is none. -/
def handleUnit (parsed : Option FunctionDefnAST × ParserState) (s : ProgramState) :
    GenResult Unit × ProgramState :=
  match parsed with
  | (none, p) => (.ok (), { s with parser := next_token p, units := s.units ++ [.parseFailed] })
  | (some f, p) =>
    match f.codeGen s.gen with
    | (.ok _, g) => (.ok (), { parser := p, gen := g, units := s.units ++ [.generated f] })
    | (.null e, g) => (.ok (), { parser := p, gen := g, units := s.units ++ [.notGenerated f e] })
    | (.undefined, g) => (.undefined, { parser := p, gen := g, units := s.units })

/-- The function `handleDefn()`. -/
def handleDefn (fuel : Nat) (s : ProgramState) : Option (GenResult Unit × ProgramState) :=
  (func_defn_parser_fn fuel s.parser).map (fun parsed => handleUnit parsed s)

/-- The function `handleTopExpression()`. -/
def handleTopExpression (fuel : Nat) (s : ProgramState) :
    Option (GenResult Unit × ProgramState) :=
  (top_level_parser_fn fuel s.parser).map (fun parsed => handleUnit parsed s)

/-- The function `driver()`; one unfolding is one turn of its `while(1)` loop. -/
def driver : Nat → ProgramState → Option Outcome
  | 0, _ => none
  | fuel + 1, s =>
    if s.parser.current_token = EOF_TOKEN then some (.returned s)
    else if s.parser.current_token = 59 then
      driver fuel { s with parser := next_token s.parser }
    else
      match (if s.parser.current_token = DEF_TOKEN then handleDefn fuel s
             else handleTopExpression fuel s) with
      | none => none
      | some (.ok _, s1) => driver fuel s1
      | some (_, s1) => some (.undefined s1)

/-- The part of `main` between opening the file and printing the module:
`next_token()`, a new empty module, `driver()`. -/
def main (fuel : Nat) (input : List Char) : Option Outcome :=
  driver fuel { parser := next_token (initialState input),
                gen := { module_Ob := [], named_Values := [] },
                units := [] }

/-! ## Vocabulary of the statements -/

/-- The lexer state in which exactly the text `t` is still to be scanned:
`lastChar` holds its first character (`EOF` when `t` is empty) and `source`
the rest. -/
def atText (t : List Char) (ident : String) (num : Int) : LexState :=
  { source := (fgetc t).2, lastChar := (fgetc t).1, identifier_string := ident,
    numeric_val := num }

/-- Every character of `w` is white space. -/
def allSpace (w : List Char) : Prop := ∀ c ∈ w, isspace (c.toNat : Int) = true

/-- Every character of `d` is a decimal digit. -/
def allDigit (d : List Char) : Prop := ∀ c ∈ d, isdigit (c.toNat : Int) = true

/-- An integer literal: a non-empty string of digits. -/
def isLiteral (d : List Char) : Prop := d ≠ [] ∧ allDigit d

/-- The text `t` does not begin with a character satisfying `p`. -/
def headNot (p : Int → Bool) (t : List Char) : Prop :=
  ∀ c ∈ t.head?, p (c.toNat : Int) = false

/-- The binary operators of the language. -/
def isOperator (op : Char) : Prop := op = '+' ∨ op = '-' ∨ op = '*' ∨ op = '/'

instance (w : List Char) : Decidable (allSpace w) :=
  inferInstanceAs (Decidable (∀ c ∈ w, isspace (c.toNat : Int) = true))

instance (d : List Char) : Decidable (allDigit d) :=
  inferInstanceAs (Decidable (∀ c ∈ d, isdigit (c.toNat : Int) = true))

instance (d : List Char) : Decidable (isLiteral d) :=
  inferInstanceAs (Decidable (d ≠ [] ∧ allDigit d))

instance (op : Char) : Decidable (isOperator op) :=
  inferInstanceAs (Decidable (op = '+' ∨ op = '-' ∨ op = '*' ∨ op = '/'))

/-- The text `op x1 op x2 ... op xn` that continues an expression with the
operands `xs`, each preceded by the operator `op`. -/
def chainText (op : Char) : List (List Char) → List Char
  | [] => []
  | x :: xs => op :: (x ++ chainText op xs)

/-- The left-nested tree `(((first op x1) op x2) ... op xn)` over the literals
`xs`, each operand being the `NumericAST` of the value the lexer gives it. -/
def leftNested (op : String) (first : BaseAST) (xs : List (List Char)) : BaseAST :=
  xs.foldl (fun lhs x => BaseAST.BinaryAST op lhs (BaseAST.NumericAST (strtod_int ⟨x⟩))) first

/-- Every character of `w` is a letter or a digit. -/
def allAlnum (w : List Char) : Prop := ∀ c ∈ w, isalnum (c.toNat : Int) = true

/-- A word: a letter followed by letters and digits. -/
def isWord : List Char → Prop
  | [] => False
  | c :: cs => isalpha (c.toNat : Int) = true ∧ allAlnum cs

/-- The text of an `IDENTIFIER_TOKEN`: a word other than the keyword `def`. -/
def isIdentifier (w : List Char) : Prop := isWord w ∧ w ≠ ['d', 'e', 'f']

instance (w : List Char) : Decidable (allAlnum w) :=
  inferInstanceAs (Decidable (∀ c ∈ w, isalnum (c.toNat : Int) = true))

instance (w : List Char) : Decidable (isWord w) :=
  match w with
  | [] => inferInstanceAs (Decidable False)
  | c :: cs => inferInstanceAs (Decidable (isalpha (c.toNat : Int) = true ∧ allAlnum cs))

instance (w : List Char) : Decidable (isIdentifier w) :=
  inferInstanceAs (Decidable (isWord w ∧ w ≠ ['d', 'e', 'f']))

/-- The tokens returned by successive calls of `get_token`, each with the
`identifier_string` and the `numeric_val` the call leaves, up to and
including the first `EOF_TOKEN`; at most `fuel` calls. -/
def tokenStream : Nat → LexState → List (Int × String × Int)
  | 0, _ => []
  | fuel + 1, s =>
    ((get_token s).1, (get_token s).2.identifier_string, (get_token s).2.numeric_val) ::
      (if (get_token s).1 = EOF_TOKEN then [] else tokenStream fuel (get_token s).2)

/-- The text of a parameter list: each name `p` followed by white space `w`. -/
def paramsText : List (List Char × List Char) → List Char
  | [] => []
  | (p, w) :: rest => p ++ w ++ paramsText rest

/-- A parameter list written so that it scans as its names: every name is an
identifier, is followed by white space, and only the last may be followed by
none. -/
def paramsOK : List (List Char × List Char) → Prop
  | [] => True
  | (p, w) :: rest => isIdentifier p ∧ allSpace w ∧ (w = [] → rest = []) ∧ paramsOK rest

/-- The `identifier_string` left after the names of a parameter list have been
scanned, `ident` when the list is empty. -/
def lastIdent (ident : String) (ps : List (List Char × List Char)) : String :=
  ps.foldl (fun _ q => ⟨q.1⟩) ident

mutual

/-- Every `BinaryAST` node of the tree stores an operator that `atoi` decodes
to the code of `+`, `-`, `*` or `/`, the cases of the `switch` in
`BinaryAST::codeGen`. -/
def opsSupported : BaseAST → Prop
  | .VariableAST _ => True
  | .NumericAST _ => True
  | .BinaryAST bin_operator LHS RHS =>
    (atoi bin_operator = 43 ∨ atoi bin_operator = 45 ∨ atoi bin_operator = 42 ∨
      atoi bin_operator = 47) ∧ opsSupported LHS ∧ opsSupported RHS
  | .FunctionCallAST _ function_arguments => opsSupportedList function_arguments

/-- The same of every tree of a list. -/
def opsSupportedList : List BaseAST → Prop
  | [] => True
  | a :: as => opsSupported a ∧ opsSupportedList as

end

/-- An operand of an operator chain as it is written: an integer literal or
an identifier. -/
inductive Operand where
  | literal (d : List Char)
  | identifier (w : List Char)

/-- The characters of an operand. -/
def Operand.text : Operand → List Char
  | .literal d => d
  | .identifier w => w

/-- The operand is well written: digits, or a word other than `def`. -/
def Operand.ok : Operand → Prop
  | .literal d => isLiteral d
  | .identifier w => isIdentifier w

/-- The tree of an operand: `NumericAST` of the value the lexer gives the
literal, `VariableAST` of the identifier. -/
def Operand.leaf : Operand → BaseAST
  | .literal d => .NumericAST (strtod_int ⟨d⟩)
  | .identifier w => .VariableAST ⟨w⟩

/-- One step of an operator chain: white space, an operator, white space, an
operand. -/
structure Step where
  wop : List Char
  op : Char
  wx : List Char
  x : Operand

/-- The step is well written. -/
def Step.ok (st : Step) : Prop :=
  allSpace st.wop ∧ isOperator st.op ∧ allSpace st.wx ∧ st.x.ok

/-- The text `op1 x1 ... opn xn` of a chain of steps, followed by the white
space `wend`. -/
def stepsText (wend : List Char) : List Step → List Char
  | [] => wend
  | st :: rest => st.wop ++ st.op :: (st.wx ++ st.x.text ++ stepsText wend rest)

/-- What an in-order traversal meets: a tree that is not a `BinaryAST`, or
the operator stored in a `BinaryAST` node. -/
inductive Symbol where
  | leaf (t : BaseAST)
  | op (bin_operator : String)

/-- In-order traversal: left subtree, operator, right subtree. -/
def inorder : BaseAST → List Symbol
  | .BinaryAST bin_operator LHS RHS => inorder LHS ++ Symbol.op bin_operator :: inorder RHS
  | .VariableAST v => [Symbol.leaf (.VariableAST v)]
  | .NumericAST n => [Symbol.leaf (.NumericAST n)]
  | .FunctionCallAST callee args => [Symbol.leaf (.FunctionCallAST callee args)]

/-- The symbols `op1 x1 ... opn xn` of a chain of steps, an operator being
stored as `to_string` of its character code. -/
def stepsSymbols : List Step → List Symbol
  | [] => []
  | st :: rest =>
    Symbol.op (to_string (st.op.toNat : Int)) :: Symbol.leaf st.x.leaf :: stepsSymbols rest

instance (x : Operand) : Decidable x.ok :=
  match x with
  | .literal d => inferInstanceAs (Decidable (isLiteral d))
  | .identifier w => inferInstanceAs (Decidable (isIdentifier w))

instance (st : Step) : Decidable st.ok :=
  inferInstanceAs (Decidable (allSpace st.wop ∧ isOperator st.op ∧ allSpace st.wx ∧ st.x.ok))

/-- The function has a body: the one entry block, ending in a return. -/
def Function.hasBody (fn : Function) : Prop :=
  ∃ retVal, fn.blocks = [{ label := "enrty", ret := some retVal }]

/-- The invariant of the module between units: every function has a body,
and no two functions share a non-empty name. -/
def ModuleInv (m : Module) : Prop :=
  (∀ fn ∈ m, fn.hasBody) ∧ ((m.map Function.name).filter (fun name => name ≠ "")).Nodup

/-- The number of characters still to be consumed when `lastChar` is `lc` and
the unread part of the file is `src`: those of `src`, and `lc` itself unless
it is `EOF`. -/
def pending (lc : Int) (src : List Char) : Nat := src.length + (if lc = EOF then 0 else 1)

/-- The number of characters the lexer has not consumed yet. -/
def unread (s : LexState) : Nat := pending s.lastChar s.source

/-- The parser has advanced from `s` to `s1`: no more characters are unread,
and either fewer are or the current token is `EOF_TOKEN`. -/
def Advanced (s s1 : ParserState) : Prop :=
  unread s1.lex ≤ unread s.lex ∧ (unread s1.lex < unread s.lex ∨ s1.current_token = EOF_TOKEN)

/-- The parser is at `s1` where it was at `s`, or has advanced. -/
def NotBehind (s s1 : ParserState) : Prop := s1 = s ∨ Advanced s s1

/-- With fuel `5 * unread + 4` or more, `base_parser` returns from `s`, not
behind `s`, and advanced when it returns a tree. -/
def BaseReturns (s : ParserState) : Prop :=
  ∀ fuel, 5 * unread s.lex + 4 ≤ fuel →
    ∃ r, base_parser_fn fuel s = some r ∧ NotBehind s r.2 ∧ (r.1.isSome = true → Advanced s r.2)

/-- With fuel `5 * unread + 3` or more, `identifier_parser` returns from `s`,
advanced. -/
def IdentifierReturns (s : ParserState) : Prop :=
  ∀ fuel, 5 * unread s.lex + 3 ≤ fuel →
    ∃ r, identifier_parser_fn fuel s = some r ∧ Advanced s r.2

/-- With fuel `5 * unread + 6` or more, the argument loop of
`identifier_parser` returns from `s`, not behind `s`. -/
def ArgsReturn (s : ParserState) : Prop :=
  ∀ args fuel, 5 * unread s.lex + 6 ≤ fuel →
    ∃ r, identifier_args fuel args s = some r ∧ NotBehind s r.2

/-- With fuel `5 * unread + 5` or more, `expression_parser` returns from `s`,
not behind `s`, and advanced when it returns a tree. -/
def ExpressionReturns (s : ParserState) : Prop :=
  ∀ fuel, 5 * unread s.lex + 5 ≤ fuel →
    ∃ r, expression_parser_fn fuel s = some r ∧ NotBehind s r.2 ∧
      (r.1.isSome = true → Advanced s r.2)

/-- With fuel `5 * unread + 2` or more, `binary_op_parser` returns from `s`,
not behind `s`. -/
def BinaryOpReturns (s : ParserState) : Prop :=
  ∀ p LHS fuel, 5 * unread s.lex + 2 ≤ fuel →
    ∃ r, binary_op_parser_fn fuel p LHS s = some r ∧ NotBehind s r.2

/-- With fuel `5 * unread + 3` or more, `paran_parser` returns from `s`,
advanced. -/
def ParanReturns (s : ParserState) : Prop :=
  ∀ fuel, 5 * unread s.lex + 3 ≤ fuel →
    ∃ r, paran_parser_fn fuel s = some r ∧ Advanced s r.2

/-! # Properties -/

/-! ## The lexer -/

theorem toChar_toNat (c : Char) : toChar (c.toNat : Int) = c := by
  simp [toChar]

theorem fgetc_cons (c : Char) (cs : List Char) : fgetc (c :: cs) = ((c.toNat : Int), cs) := rfl

theorem fgetc_nil : fgetc [] = (EOF, []) := rfl

theorem isspace_EOF : isspace EOF = false := by decide

theorem isdigit_EOF : isdigit EOF = false := by decide

theorem isalpha_EOF : isalpha EOF = false := by decide

theorem skipSpaces_of_not_space (src : List Char) (lc : Int) (h : isspace lc = false) :
    skipSpaces src lc = (lc, src) := by
  cases src <;> simp [skipSpaces, h]

theorem skipSpaces_length (src : List Char) (lc : Int) :
    (skipSpaces src lc).2.length ≤ src.length := by
  induction src generalizing lc with
  | nil => simp only [skipSpaces]; split <;> simp
  | cons c cs ih =>
    simp only [skipSpaces]; split
    · exact Nat.le_succ_of_le (ih _)
    · simp

theorem skipComment_length (src : List Char) (h : (skipComment src).1 ≠ EOF) :
    (skipComment src).2.length < src.length := by
  induction src with
  | nil => simp [skipComment] at h
  | cons c cs ih =>
    simp only [skipComment] at h ⊢
    split
    · rename_i hc
      simp only [hc, if_true] at h
      exact Nat.lt_succ_of_lt (ih h)
    · simp

/-- The fuel of `get_token_fuel` does not matter once it exceeds the number of
unread characters. -/
theorem get_token_fuel_eq (n : Nat) : ∀ (m : Nat) (s : LexState),
    s.source.length < n → s.source.length < m → get_token_fuel n s = get_token_fuel m s := by
  induction n with
  | zero => intro m s h; omega
  | succ n ih =>
    intro m s hn hm
    cases m with
    | zero => omega
    | succ m =>
      simp only [get_token_fuel]
      have hlen := skipSpaces_length s.source s.lastChar
      generalize (skipSpaces s.source s.lastChar) = sk at hlen ⊢
      obtain ⟨lastChar, src⟩ := sk
      simp only at hlen ⊢
      by_cases ha : isalpha lastChar = true
      · simp only [ha, if_true]
      · simp only [ha]
        by_cases hd : isdigit lastChar = true
        · simp only [hd, if_true]
        · simp only [hd]
          by_cases hc : (lastChar == 35 && (if (lastChar == 35) = true then skipComment src
              else (lastChar, src)).1 != EOF) = true
          · rw [if_pos hc, if_pos hc]
            simp only [Bool.and_eq_true, beq_iff_eq, bne_iff_ne] at hc
            obtain ⟨h35, hne⟩ := hc
            simp only [h35, beq_self_eq_true, if_true] at hne ⊢
            have := skipComment_length src hne
            apply ih <;> simp only <;> omega
          · rw [if_neg hc, if_neg hc]

theorem get_token_eq_fuel (n : Nat) (s : LexState) (h : s.source.length < n) :
    get_token s = get_token_fuel n s :=
  (get_token_fuel_eq n _ s h (Nat.lt_succ_self _)).symm

theorem skipSpaces_fgetc (w t : List Char) (hw : allSpace w) (ht : headNot isspace t) :
    skipSpaces (fgetc (w ++ t)).2 (fgetc (w ++ t)).1 = fgetc t := by
  induction w with
  | nil =>
    cases t with
    | nil => simp [fgetc, skipSpaces, isspace_EOF]
    | cons c cs =>
      have hc : isspace (c.toNat : Int) = false := ht c (by simp)
      simp [fgetc, skipSpaces_of_not_space _ _ hc]
  | cons a w ih =>
    have ha : isspace (a.toNat : Int) = true := hw a (by simp)
    have ih1 := ih (fun c hc => hw c (by simp [hc]))
    cases hwt : w ++ t with
    | nil =>
      obtain ⟨hw0, ht0⟩ := List.append_eq_nil.mp hwt
      simp [fgetc, hw0, skipSpaces, ha, ht0]
    | cons c cs =>
      rw [hwt] at ih1
      simpa [fgetc, hwt, skipSpaces, ha] using ih1

theorem readNumber_digits (d rest : List Char) (hd : allDigit d) (hr : headNot isdigit rest) :
    ∀ (lastChar : Int) (numStr : String),
      readNumber (d ++ rest) lastChar numStr =
        (⟨numStr.data ++ toChar lastChar :: d⟩, (fgetc rest).1, (fgetc rest).2) := by
  induction d with
  | nil =>
    intro lastChar numStr
    cases rest with
    | nil => simp [readNumber, fgetc, String.push]
    | cons c cs =>
      have hc : isdigit (c.toNat : Int) = false := hr c (by simp)
      simp [readNumber, fgetc, String.push, hc]
  | cons a d ih =>
    intro lastChar numStr
    have ha : isdigit (a.toNat : Int) = true := hd a (by simp)
    have ih1 := ih (fun c hc => hd c (by simp [hc])) (a.toNat : Int) (numStr.push (toChar lastChar))
    rw [List.cons_append, readNumber, if_pos ha, ih1]
    simp [String.push, toChar_toNat]

theorem isdigit_not_isspace (c : Int) (h : isdigit c = true) : isspace c = false := by
  simp only [isdigit, isspace, Bool.and_eq_true, decide_eq_true_eq, Bool.or_eq_false_iff,
    beq_eq_false_iff_ne, Bool.and_eq_false_iff, decide_eq_false_iff_not] at *
  omega

theorem isdigit_not_isalpha (c : Int) (h : isdigit c = true) : isalpha c = false := by
  simp only [isdigit, isalpha, Bool.and_eq_true, decide_eq_true_eq, Bool.or_eq_false_iff,
    Bool.and_eq_false_iff, decide_eq_false_iff_not] at *
  omega

/-- Scanning white space `w`, a literal `d` and then something that is not a
digit yields `NUMERIC_TOKEN` with the literal's value, the cursor on the
first character after the literal. -/
theorem get_token_number (w d rest : List Char) (ident : String) (num : Int)
    (hw : allSpace w) (hd : isLiteral d) (hr : headNot isdigit rest) :
    get_token (atText (w ++ d ++ rest) ident num) =
      (NUMERIC_TOKEN, atText rest ident (strtod_int ⟨d⟩)) := by
  obtain ⟨hne, hdig⟩ := hd
  cases d with
  | nil => exact absurd rfl hne
  | cons a d =>
    have ha : isdigit (a.toNat : Int) = true := hdig a (by simp)
    have hsk := skipSpaces_fgetc w (a :: d ++ rest)  hw
      (fun c hc => by simp at hc; subst hc; exact isdigit_not_isspace _ ha)
    rw [List.append_assoc]
    simp only [get_token, get_token_fuel, atText, hsk]
    simp only [fgetc_cons, List.cons_append, isdigit_not_isalpha _ ha, ha, if_true]
    rw [readNumber_digits d rest (fun c hc => hdig c (by simp [hc])) hr]
    simp [toChar_toNat]

theorem isspace_not_isdigit (c : Int) (h : isspace c = true) : isdigit c = false := by
  cases hd : isdigit c with
  | false => rfl
  | true => rw [isdigit_not_isspace c hd] at h; exact absurd h (by decide)

theorem headNot_nil (p : Int → Bool) : headNot p [] := by
  intro c hc; simp at hc

theorem headNot_cons (p : Int → Bool) (c : Char) (t : List Char) (h : p (c.toNat : Int) = false) :
    headNot p (c :: t) := by
  intro x hx; simp at hx; subst hx; exact h

theorem headNot_space_append (p : Int → Bool) (w t : List Char) (hw : allSpace w)
    (hp : ∀ c, isspace c = true → p c = false) (ht : headNot p t) : headNot p (w ++ t) := by
  cases w with
  | nil => simpa using ht
  | cons a w => exact headNot_cons p a _ (hp _ (hw a (by simp)))

theorem allSpace_nil : allSpace [] := by
  intro c hc; simp at hc

/-- Scanning white space `w` and then a character that is neither white
space, a letter, a digit nor `#` yields that character's code and moves the
cursor by exactly one character. -/
theorem get_token_punct (w rest : List Char) (c : Char) (ident : String) (num : Int)
    (hw : allSpace w) (hs : isspace (c.toNat : Int) = false) (ha : isalpha (c.toNat : Int) = false)
    (hd : isdigit (c.toNat : Int) = false) (hc : (c.toNat : Int) ≠ 35) :
    get_token (atText (w ++ c :: rest) ident num) = ((c.toNat : Int), atText rest ident num) := by
  have hsk := skipSpaces_fgetc w (c :: rest) hw (headNot_cons _ _ _ hs)
  have hne : ((c.toNat : Int) == EOF) = false := by
    simp only [EOF, beq_eq_false_iff_ne]; omega
  have h35 : ((c.toNat : Int) == 35) = false := by simpa using hc
  simp only [get_token, get_token_fuel, atText, hsk]
  simp [fgetc_cons, ha, hd, h35, hne]

/-- Scanning white space up to the end of the input yields `EOF_TOKEN` and
leaves the cursor at the end. -/
theorem get_token_eof (w : List Char) (ident : String) (num : Int) (hw : allSpace w) :
    get_token (atText w ident num) = (EOF_TOKEN, atText [] ident num) := by
  have hsk := skipSpaces_fgetc w [] hw (headNot_nil _)
  rw [List.append_nil] at hsk
  simp only [get_token, get_token_fuel, atText, hsk]
  have h1 : isalpha (-1) = false := by decide
  have h2 : isdigit (-1) = false := by decide
  simp [fgetc_nil, EOF, h1, h2]

/-! ## The expression parser -/

theorem next_token_number (w d rest : List Char) (ident : String) (num tok : Int)
    (hw : allSpace w) (hd : isLiteral d) (hr : headNot isdigit rest) :
    next_token { lex := atText (w ++ d ++ rest) ident num, current_token := tok } =
      { lex := atText rest ident (strtod_int ⟨d⟩), current_token := NUMERIC_TOKEN } := by
  unfold next_token
  rw [get_token_number w d rest ident num hw hd hr]

theorem next_token_eof (w : List Char) (ident : String) (num tok : Int) (hw : allSpace w) :
    next_token { lex := atText w ident num, current_token := tok } =
      { lex := atText [] ident num, current_token := EOF_TOKEN } := by
  unfold next_token
  rw [get_token_eof w ident num hw]

theorem isOperator_classes (op : Char) (h : isOperator op) :
    isspace (op.toNat : Int) = false ∧ isalpha (op.toNat : Int) = false ∧
      isdigit (op.toNat : Int) = false ∧ (op.toNat : Int) ≠ 35 := by
  rcases h with h | h | h | h <;> subst h <;> decide

theorem next_token_operator (w rest : List Char) (op : Char) (ident : String) (num tok : Int)
    (hw : allSpace w) (hop : isOperator op) :
    next_token { lex := atText (w ++ op :: rest) ident num, current_token := tok } =
      { lex := atText rest ident num, current_token := (op.toNat : Int) } := by
  obtain ⟨h1, h2, h3, h4⟩ := isOperator_classes op hop
  unfold next_token
  rw [get_token_punct w rest op ident num hw h1 h2 h3 h4]

theorem getBinOpPrecedence_operator (l : LexState) (op : Char) (hop : isOperator op) :
    getBinOpPrecedence { lex := l, current_token := (op.toNat : Int) } =
      operator_precedence (op.toNat : Int) ∧ 1 ≤ operator_precedence (op.toNat : Int) := by
  simp only [getBinOpPrecedence]
  rcases hop with h | h | h | h <;> subst h <;> exact ⟨by decide, by decide⟩

theorem getBinOpPrecedence_eof (l : LexState) :
    getBinOpPrecedence { lex := l, current_token := EOF_TOKEN } = -1 := by
  simp only [getBinOpPrecedence]
  decide

theorem headNot_isdigit_operator (w rest : List Char) (op : Char) (hw : allSpace w)
    (hop : isOperator op) : headNot isdigit (w ++ op :: rest) :=
  headNot_space_append _ _ _ hw isspace_not_isdigit
    (headNot_cons _ _ _ (isOperator_classes op hop).2.2.1)

theorem headNot_isdigit_space (w : List Char) (hw : allSpace w) : headNot isdigit w := by
  have := headNot_space_append isdigit w [] hw isspace_not_isdigit (headNot_nil _)
  simpa using this

theorem initialState_eq (input : List Char) :
    initialState input = { lex := atText (' ' :: input) "" 0, current_token := 0 } := rfl

theorem allSpace_cons_space (w : List Char) (hw : allSpace w) : allSpace (' ' :: w) := by
  intro c hc
  rcases List.mem_cons.mp hc with h | h
  · subst h; decide
  · exact hw c h

/-- C1: for integer literals `a`, `b`, `c` and operators `op1`, `op2` with
`op2` of strictly higher precedence than `op1`, `expression_parser_fn` on the
input `a op1 b op2 c` (any white space around the tokens) returns
`BinaryAST(op1, a, BinaryAST(op2, b, c))`, the operators stored as
`to_string` of their character codes, and has consumed the whole input. -/
theorem precedence_binds_tighter (a b c w0 w1 w2 w3 w4 w5 : List Char) (op1 op2 : Char)
    (ha : isLiteral a) (hb : isLiteral b) (hc : isLiteral c)
    (h1 : isOperator op1) (h2 : isOperator op2)
    (hprec : operator_precedence (op1.toNat : Int) < operator_precedence (op2.toNat : Int))
    (hw0 : allSpace w0) (hw1 : allSpace w1) (hw2 : allSpace w2) (hw3 : allSpace w3)
    (hw4 : allSpace w4) (hw5 : allSpace w5) (fuel : Nat) (hfuel : 4 ≤ fuel) :
    expression_parser_fn fuel (next_token (initialState
        (w0 ++ a ++ (w1 ++ op1 :: (w2 ++ b ++ (w3 ++ op2 :: (w4 ++ c ++ w5))))))) =
      some (some (.BinaryAST (to_string (op1.toNat : Int)) (.NumericAST (strtod_int ⟨a⟩))
              (.BinaryAST (to_string (op2.toNat : Int)) (.NumericAST (strtod_int ⟨b⟩))
                (.NumericAST (strtod_int ⟨c⟩)))),
            { lex := atText [] "" (strtod_int ⟨c⟩), current_token := EOF_TOKEN }) := by
  obtain ⟨n, rfl⟩ : ∃ n, fuel = n + 4 := ⟨fuel - 4, by omega⟩
  obtain ⟨hp1, hp1pos⟩ := getBinOpPrecedence_operator (atText (w2 ++ b ++ (w3 ++ op2 :: (w4 ++ c ++ w5))) "" (strtod_int ⟨a⟩)) op1 h1
  obtain ⟨hp2, hp2pos⟩ := getBinOpPrecedence_operator (atText (w4 ++ c ++ w5) "" (strtod_int ⟨b⟩)) op2 h2
  have e0 : next_token (initialState
      (w0 ++ a ++ (w1 ++ op1 :: (w2 ++ b ++ (w3 ++ op2 :: (w4 ++ c ++ w5)))))) =
      { lex := atText (w1 ++ op1 :: (w2 ++ b ++ (w3 ++ op2 :: (w4 ++ c ++ w5)))) ""
          (strtod_int ⟨a⟩), current_token := NUMERIC_TOKEN } := by
    rw [initialState_eq, ← List.cons_append, ← List.cons_append]
    exact next_token_number (' ' :: w0) a _ "" 0 0 (allSpace_cons_space w0 hw0) ha
      (headNot_isdigit_operator w1 _ op1 hw1 h1)
  have e1 := next_token_operator w1 (w2 ++ b ++ (w3 ++ op2 :: (w4 ++ c ++ w5))) op1 ""
    (strtod_int ⟨a⟩) NUMERIC_TOKEN hw1 h1
  have e2 := next_token_number w2 b (w3 ++ op2 :: (w4 ++ c ++ w5)) "" (strtod_int ⟨a⟩)
    (op1.toNat : Int) hw2 hb (headNot_isdigit_operator w3 _ op2 hw3 h2)
  have e3 := next_token_operator w3 (w4 ++ c ++ w5) op2 "" (strtod_int ⟨b⟩) NUMERIC_TOKEN hw3 h2
  have e4 := next_token_number w4 c w5 "" (strtod_int ⟨b⟩) (op2.toNat : Int) hw4 hc
    (headNot_isdigit_space w5 hw5)
  have e5 := next_token_eof w5 "" (strtod_int ⟨c⟩) NUMERIC_TOKEN hw5
  have q1 : ¬ (operator_precedence (op1.toNat : Int) < 0) := by omega
  have q2 : ¬ (operator_precedence (op2.toNat : Int) < operator_precedence (op1.toNat : Int) + 1) := by omega
  have q3 : ¬ (operator_precedence (op2.toNat : Int) < -1) := by omega
  have q4 : (-1 : Int) < operator_precedence (op1.toNat : Int) + 1 := by omega
  have t1 : (NUMERIC_TOKEN = IDENTIFIER_TOKEN) = False := by decide
  rw [e0]
  simp only [expression_parser_fn, base_parser_fn, binary_op_parser_fn, numeric_parser_fn, e1, e2, e3, e4, e5,
    hp1, hp2, getBinOpPrecedence_eof, t1, if_false, if_true, q1, q2, q3, q4, hprec]
  simp [atText]

/-- The claim C1 at `1+2*3`: the tree is `1 + (2*3)`, `43` and `42` being the
codes of `+` and `*`. -/
theorem precedence_binds_tighter_witness :
    expression_parser_fn 4 (next_token (initialState "1+2*3".data)) =
      some (some (.BinaryAST "43" (.NumericAST 1)
              (.BinaryAST "42" (.NumericAST 2) (.NumericAST 3))),
            { lex := atText [] "" 3, current_token := EOF_TOKEN }) :=
  precedence_binds_tighter ['1'] ['2'] ['3'] [] [] [] [] [] [] '+' '*'
    (by decide) (by decide) (by decide) (by decide) (by decide) (by decide)
    (by decide) (by decide) (by decide) (by decide) (by decide) (by decide) 4 (by decide)

theorem headNot_isdigit_chainText (op : Char) (hop : isOperator op) (xs : List (List Char)) :
    headNot isdigit (chainText op xs) := by
  cases xs with
  | nil => exact headNot_nil _
  | cons x xs => exact headNot_cons _ _ _ (isOperator_classes op hop).2.2.1

theorem getBinOpPrecedence_chainText (op : Char) (hop : isOperator op) (xs : List (List Char))
    (ident : String) (num tok : Int) :
    getBinOpPrecedence (next_token { lex := atText (chainText op xs) ident num, current_token := tok })
      ≤ operator_precedence (op.toNat : Int) := by
  cases xs with
  | nil =>
    rw [chainText, next_token_eof [] ident num tok allSpace_nil, getBinOpPrecedence_eof]
    have := (getBinOpPrecedence_operator (atText [] ident num) op hop).2
    omega
  | cons x xs =>
    rw [chainText]
    have := next_token_operator [] (x ++ chainText op xs) op ident num tok allSpace_nil hop
    rw [List.nil_append] at this
    rw [this, (getBinOpPrecedence_operator _ op hop).1]

/-- The loop of `binary_op_parser_fn` over a chain of one operator: every turn
combines the tree built so far with the next literal. -/
theorem binary_op_parser_chain (op : Char) (hop : isOperator op) :
    ∀ (xs : List (List Char)), (∀ x ∈ xs, isLiteral x) →
      ∀ (LHS : BaseAST) (ident : String) (num tok : Int) (fuel : Nat), xs.length + 2 ≤ fuel →
        ∃ num1, binary_op_parser_fn fuel 0 LHS
            (next_token { lex := atText (chainText op xs) ident num, current_token := tok }) =
          some (some (leftNested (to_string (op.toNat : Int)) LHS xs),
                { lex := atText [] ident num1, current_token := EOF_TOKEN }) := by
  intro xs
  induction xs with
  | nil =>
    intro _ LHS ident num tok fuel hfuel
    obtain ⟨n, rfl⟩ : ∃ n, fuel = n + 1 := ⟨fuel - 1, by simp at hfuel; omega⟩
    refine ⟨num, ?_⟩
    rw [chainText, next_token_eof [] ident num tok allSpace_nil]
    simp [binary_op_parser_fn, getBinOpPrecedence_eof, leftNested]
  | cons x xs ih =>
    intro hx LHS ident num tok fuel hfuel
    obtain ⟨n, rfl⟩ : ∃ n, fuel = n + 2 := ⟨fuel - 2, by simp at hfuel; omega⟩
    have hlit : isLiteral x := hx x (by simp)
    obtain ⟨num1, ih1⟩ := ih (fun y hy => hx y (by simp [hy])) (.BinaryAST (to_string (op.toNat : Int)) LHS
      (.NumericAST (strtod_int ⟨x⟩))) ident (strtod_int ⟨x⟩) NUMERIC_TOKEN (n + 1)
      (by simp at hfuel ⊢; omega)
    refine ⟨num1, ?_⟩
    have e1 := next_token_operator [] (x ++ chainText op xs) op ident num tok allSpace_nil hop
    have e2 := next_token_number [] x (chainText op xs) ident num (op.toNat : Int) allSpace_nil hlit
      (headNot_isdigit_chainText op hop xs)
    rw [List.nil_append] at e1 e2
    obtain ⟨hp, hpos⟩ := getBinOpPrecedence_operator (atText (x ++ chainText op xs) ident num) op hop
    have hnext := getBinOpPrecedence_chainText op hop xs ident (strtod_int ⟨x⟩) NUMERIC_TOKEN
    have q1 : ¬ (operator_precedence (op.toNat : Int) < 0) := by omega
    have t1 : (NUMERIC_TOKEN = IDENTIFIER_TOKEN) = False := by decide
    rw [chainText, e1]
    simp only [binary_op_parser_fn, base_parser_fn, numeric_parser_fn, hp, q1, if_false, e2, t1, if_true,
      not_lt.mpr hnext]
    simpa [leftNested, atText] using ih1

/-- C2: for an operator `op` and integer literals `x1 ... xn` joined by `op`,
`expression_parser_fn` returns the left-nested tree `(((x1 op x2) op x3) ... op xn)`
given fuel `n + 2` or more, having consumed the whole input. -/
theorem same_operator_nests_left (op : Char) (hop : isOperator op) (x1 : List Char)
    (xs : List (List Char)) (h1 : isLiteral x1) (hxs : ∀ x ∈ xs, isLiteral x)
    (fuel : Nat) (hfuel : xs.length + 3 ≤ fuel) :
    ∃ num, expression_parser_fn fuel (next_token (initialState (x1 ++ chainText op xs))) =
      some (some (leftNested (to_string (op.toNat : Int)) (.NumericAST (strtod_int ⟨x1⟩)) xs),
            { lex := atText [] "" num, current_token := EOF_TOKEN }) := by
  obtain ⟨n, rfl⟩ : ∃ n, fuel = n + 2 := ⟨fuel - 2, by omega⟩
  obtain ⟨num, h⟩ := binary_op_parser_chain op hop xs hxs (.NumericAST (strtod_int ⟨x1⟩)) ""
    (strtod_int ⟨x1⟩) NUMERIC_TOKEN (n + 1) (by omega)
  refine ⟨num, ?_⟩
  have e0 : next_token (initialState (x1 ++ chainText op xs)) =
      { lex := atText (chainText op xs) "" (strtod_int ⟨x1⟩), current_token := NUMERIC_TOKEN } := by
    rw [initialState_eq]
    exact next_token_number [' '] x1 _ "" 0 0 (allSpace_cons_space [] allSpace_nil) h1
      (headNot_isdigit_chainText op hop xs)
  have t1 : (NUMERIC_TOKEN = IDENTIFIER_TOKEN) = False := by decide
  rw [e0]
  simp only [expression_parser_fn, base_parser_fn, numeric_parser_fn, t1, if_false, if_true]
  simpa [atText] using h

/-- The claim C2 at `1-2-3`: the tree is `(1-2)-3`, `45` being the code of `-`. -/
theorem same_operator_nests_left_witness :
    ∃ num, expression_parser_fn 5 (next_token (initialState "1-2-3".data)) =
      some (some (.BinaryAST "45" (.BinaryAST "45" (.NumericAST 1) (.NumericAST 2))
              (.NumericAST 3)),
            { lex := atText [] "" num, current_token := EOF_TOKEN }) :=
  same_operator_nests_left '-' (by decide) ['1'] [['2'], ['3']] (by decide) (by decide) 5
    (by decide)

/-! ## Fuel

A parser that has returned with some fuel returns the same with more. -/

/-- One more unit of fuel does not change a result of the mutually recursive
parsers. -/
theorem parser_fuel_succ (n : Nat) :
    (∀ s r, base_parser_fn n s = some r → base_parser_fn (n + 1) s = some r) ∧
    (∀ s r, identifier_parser_fn n s = some r → identifier_parser_fn (n + 1) s = some r) ∧
    (∀ args s r, identifier_args n args s = some r → identifier_args (n + 1) args s = some r) ∧
    (∀ s r, expression_parser_fn n s = some r → expression_parser_fn (n + 1) s = some r) ∧
    (∀ p LHS s r, binary_op_parser_fn n p LHS s = some r →
      binary_op_parser_fn (n + 1) p LHS s = some r) ∧
    (∀ s r, paran_parser_fn n s = some r → paran_parser_fn (n + 1) s = some r) := by
  induction n with
  | zero =>
    refine ⟨?_, ?_, ?_, ?_, ?_, ?_⟩ <;> intros <;>
      simp_all [base_parser_fn, identifier_parser_fn, identifier_args, expression_parser_fn,
        binary_op_parser_fn, paran_parser_fn]
  | succ n ih =>
    obtain ⟨ihb, ihi, iha, ihe, ihbin, ihp⟩ := ih
    refine ⟨?_, ?_, ?_, ?_, ?_, ?_⟩
    · intro s r h
      rw [base_parser_fn] at h ⊢
      split_ifs at h ⊢ with h1 h2 h3
      · exact ihi _ _ h
      · exact h
      · exact ihp _ _ h
      · exact h
    · intro s r h
      rw [identifier_parser_fn] at h ⊢
      simp only at h ⊢
      split_ifs at h ⊢ with h1 h2
      · exact h
      · cases ha : identifier_args n [] (next_token (next_token s)) with
        | none => simp [ha] at h
        | some x => rw [iha _ _ _ ha]; rw [ha] at h; exact h
      · exact h
    · intro args s r h
      rw [identifier_args] at h ⊢
      cases he : expression_parser_fn n s with
      | none => simp [he] at h
      | some x =>
        rw [ihe _ _ he]; rw [he] at h
        obtain ⟨o, s1⟩ := x
        cases o with
        | none => exact h
        | some arg =>
          simp only at h ⊢
          split_ifs at h ⊢ with h1 h2
          · exact h
          · exact h
          · exact iha _ _ _ h
    · intro s r h
      rw [expression_parser_fn] at h ⊢
      cases hb : base_parser_fn n s with
      | none => simp [hb] at h
      | some x =>
        rw [ihb _ _ hb]; rw [hb] at h
        obtain ⟨o, s1⟩ := x
        cases o with
        | none => exact h
        | some LHS => exact ihbin _ _ _ _ h
    · intro p LHS s r h
      rw [binary_op_parser_fn] at h ⊢
      simp only at h ⊢
      split_ifs at h ⊢ with h1
      · exact h
      · cases hb : base_parser_fn n (next_token s) with
        | none => simp [hb] at h
        | some x =>
          rw [ihb _ _ hb]; rw [hb] at h
          obtain ⟨o, s1⟩ := x
          cases o with
          | none => exact h
          | some rhs =>
            simp only at h ⊢
            split_ifs at h ⊢ with h2
            · cases hr : binary_op_parser_fn n (getBinOpPrecedence s + 1) rhs s1 with
              | none => simp [hr] at h
              | some y =>
                rw [ihbin _ _ _ _ hr]; rw [hr] at h
                obtain ⟨o2, s2⟩ := y
                cases o2 with
                | none => exact h
                | some rhs1 => exact ihbin _ _ _ _ h
            · exact ihbin _ _ _ _ h
    · intro s r h
      rw [paran_parser_fn] at h ⊢
      cases he : expression_parser_fn n (next_token s) with
      | none => simp [he] at h
      | some x => rw [ihe _ _ he]; rw [he] at h; exact h

theorem expression_parser_fuel_le {n m : Nat} (h : n ≤ m) (s : ParserState)
    (r : Option BaseAST × ParserState) (hr : expression_parser_fn n s = some r) :
    expression_parser_fn m s = some r := by
  induction h with
  | refl => exact hr
  | step _ ih => exact (parser_fuel_succ _).2.2.2.1 _ _ ih

theorem func_decl_args_fuel_succ (n : Nat) : ∀ (names : List String) (s : ParserState)
    (r : List String × ParserState), func_decl_args n names s = some r →
      func_decl_args (n + 1) names s = some r := by
  induction n with
  | zero => intro names s r h; simp [func_decl_args] at h
  | succ n ih =>
    intro names s r h
    rw [func_decl_args] at h ⊢
    split_ifs at h ⊢ with h1
    · exact ih _ _ _ h
    · exact h

theorem func_decl_parser_fuel_succ (n : Nat) (s : ParserState)
    (r : Option FunctionDeclAST × ParserState) (h : func_decl_parser_fn n s = some r) :
    func_decl_parser_fn (n + 1) s = some r := by
  unfold func_decl_parser_fn at h ⊢
  simp only at h ⊢
  split_ifs at h ⊢ with h1 h2
  · exact h
  · exact h
  · cases ha : func_decl_args n [] (next_token s) with
    | none => simp [ha] at h
    | some x => rw [func_decl_args_fuel_succ _ _ _ _ ha]; rw [ha] at h; exact h

theorem func_defn_parser_fuel_succ (n : Nat) (s : ParserState)
    (r : Option FunctionDefnAST × ParserState) (h : func_defn_parser_fn n s = some r) :
    func_defn_parser_fn (n + 1) s = some r := by
  unfold func_defn_parser_fn at h ⊢
  simp only at h ⊢
  cases hd : func_decl_parser_fn n (next_token s) with
  | none => simp [hd] at h
  | some x =>
    rw [func_decl_parser_fuel_succ _ _ _ hd]; rw [hd] at h
    obtain ⟨o, s1⟩ := x
    cases o with
    | none => exact h
    | some decl =>
      simp only at h ⊢
      cases he : expression_parser_fn n s1 with
      | none => simp [he] at h
      | some y => rw [(parser_fuel_succ n).2.2.2.1 _ _ he]; rw [he] at h; exact h

theorem func_defn_parser_fuel_le {n m : Nat} (h : n ≤ m) (s : ParserState)
    (r : Option FunctionDefnAST × ParserState) (hr : func_defn_parser_fn n s = some r) :
    func_defn_parser_fn m s = some r := by
  induction h with
  | refl => exact hr
  | step _ ih => exact func_defn_parser_fuel_succ _ _ _ ih

theorem top_level_parser_fuel_succ (n : Nat) (s : ParserState)
    (r : Option FunctionDefnAST × ParserState) (h : top_level_parser_fn n s = some r) :
    top_level_parser_fn (n + 1) s = some r := by
  unfold top_level_parser_fn at h ⊢
  cases he : expression_parser_fn n s with
  | none => simp [he] at h
  | some y => rw [(parser_fuel_succ n).2.2.2.1 _ _ he]; rw [he] at h; exact h

theorem driver_fuel_succ (n : Nat) : ∀ (s : ProgramState) (r : Outcome),
    driver n s = some r → driver (n + 1) s = some r := by
  induction n with
  | zero => intro s r h; simp [driver] at h
  | succ n ih =>
    intro s r h
    rw [driver] at h ⊢
    split_ifs at h ⊢ with h1 h2 h3
    · exact h
    · exact ih _ _ h
    · simp only [handleDefn] at h ⊢
      cases hp : func_defn_parser_fn n s.parser with
      | none => simp [hp] at h
      | some x =>
        rw [func_defn_parser_fuel_succ _ _ _ hp]; rw [hp] at h
        simp only [Option.map_some'] at h ⊢
        generalize handleUnit x s = u at h ⊢
        obtain ⟨g, s1⟩ := u
        cases g with
        | ok v => exact ih _ _ h
        | null e => exact h
        | undefined => exact h
    · simp only [handleTopExpression] at h ⊢
      cases hp : top_level_parser_fn n s.parser with
      | none => simp [hp] at h
      | some x =>
        rw [top_level_parser_fuel_succ _ _ _ hp]; rw [hp] at h
        simp only [Option.map_some'] at h ⊢
        generalize handleUnit x s = u at h ⊢
        obtain ⟨g, s1⟩ := u
        cases g with
        | ok v => exact ih _ _ h
        | null e => exact h
        | undefined => exact h

/-- A run of `main` that has ended with some fuel ends the same way with any
larger amount. -/
theorem main_fuel_le {n m : Nat} (h : n ≤ m) (input : List Char) (r : Outcome)
    (hr : main n input = some r) : main m input = some r := by
  induction h with
  | refl => exact hr
  | step _ ih => exact driver_fuel_succ _ _ _ ih

/-! ## Parenthesised expressions -/

/-- C3, as the code behaves: `paran_parser_fn` returns at `)` without calling
`next_token()`, so on `(1+2)*3` the loop of `binary_op_parser_fn` sees `)` and
`expression_parser_fn` returns `1+2` (`43` is the code of `+`) with the current
token still `)` (code `41`) and `*3` unread; the driver then generates the
two units `1+2` and `3`, and no unit `(1+2)*3`. -/
theorem paren_operand_ends_the_expression (k : Nat) :
    expression_parser_fn (6 + k) (next_token (initialState "(1+2)*3".data)) =
      some (some (.BinaryAST "43" (.NumericAST 1) (.NumericAST 2)),
            { lex := atText ['*', '3'] "" 2, current_token := 41 }) ∧
    main (10 + k) "(1+2)*3".data = some (.returned
      { parser := { lex := atText [] "" 3, current_token := EOF_TOKEN },
        gen :=
          { module_Ob :=
              [{ name := "", arg_size := 0,
                 blocks := [{ label := "enrty",
                              ret := some (.Add (.ConstantInt 1) (.ConstantInt 2)) }] },
               { name := "", arg_size := 0,
                 blocks := [{ label := "enrty", ret := some (.ConstantInt 3) }] }],
            named_Values := [] },
        units :=
          [.generated { func_decl := { func_name := "", arguments := [] },
                        body := .BinaryAST "43" (.NumericAST 1) (.NumericAST 2) },
           .parseFailed, .parseFailed,
           .generated { func_decl := { func_name := "", arguments := [] },
                        body := .NumericAST 3 }] }) :=
  ⟨expression_parser_fuel_le (Nat.le_add_right 6 k) _ _ rfl,
   main_fuel_le (Nat.le_add_right 10 k) _ _ rfl⟩

/-! ## The module and the symbol table -/

theorem findFunction_some (name : String) : ∀ (m : List Function) (i : Nat) (fn : Function),
    findFunction name m = some (i, fn) → m.get? i = some fn ∧ fn.name = name := by
  intro m
  induction m with
  | nil => intro i fn h; simp [findFunction] at h
  | cons g m ih =>
    intro i fn h
    rw [findFunction] at h
    split_ifs at h with hg
    · simp only [Option.some.injEq, Prod.mk.injEq] at h
      obtain ⟨rfl, rfl⟩ := h
      exact ⟨rfl, hg⟩
    · cases hf : findFunction name m with
      | none => simp [hf] at h
      | some r =>
        obtain ⟨j, fn1⟩ := r
        simp only [hf, Option.map_some', Option.some.injEq, Prod.mk.injEq] at h
        obtain ⟨rfl, rfl⟩ := h
        exact ih j fn1 hf

theorem findFunction_append_none (name : String) (g : Function) :
    ∀ (m : List Function), findFunction name m = none →
      findFunction name (m ++ [g]) = if g.name = name then some (m.length, g) else none := by
  intro m
  induction m with
  | nil => intro _; simp [findFunction]
  | cons a m ih =>
    intro h
    rw [findFunction] at h
    split_ifs at h with ha
    have hm : findFunction name m = none := by
      cases hf : findFunction name m with
      | none => rfl
      | some r => simp [hf] at h
    rw [List.cons_append, findFunction, if_neg ha, ih hm]
    split_ifs <;> simp

theorem findFunction_modify (name : String) (g : Function → Function)
    (hg : ∀ x, (g x).name = x.name) : ∀ (m : List Function) (i : Nat),
      findFunction name (List.modify g i m) =
        (findFunction name m).map (fun r => (r.1, if r.1 = i then g r.2 else r.2)) := by
  intro m
  induction m with
  | nil => intro i; simp [findFunction]
  | cons a m ih =>
    intro i
    cases i with
    | zero =>
      rw [List.modify_zero_cons, findFunction, findFunction, hg]
      split_ifs with ha
      · simp
      · cases hf : findFunction name m with
        | none => simp
        | some r => simp
    | succ i =>
      rw [List.modify_succ_cons, findFunction, findFunction, ih]
      split_ifs with ha
      · simp
      · cases hf : findFunction name m with
        | none => simp
        | some r => simp

theorem modify_append_last (g : Function → Function) (x : Function) : ∀ (m : List Function),
    List.modify g m.length (m ++ [x]) = m ++ [g x] := by
  intro m
  induction m with
  | nil => rfl
  | cons a m ih => simp [ih]

theorem eraseIdx_append_last (x : Function) : ∀ (m : List Function),
    (m ++ [x]).eraseIdx m.length = m := by
  intro m
  induction m with
  | nil => rfl
  | cons a m ih => simp [ih]

theorem lookup_bindArguments (v : String) : ∀ (args : List String) (idx : Nat)
    (nv : List (String × Value)),
      (List.lookup v (bindArguments args idx nv)).isSome = true ↔
        v ∈ args ∨ (List.lookup v nv).isSome = true := by
  intro args
  induction args with
  | nil => intro idx nv; simp [bindArguments]
  | cons a args ih =>
    intro idx nv
    rw [bindArguments, ih]
    by_cases hva : v = a
    · subst hva; simp [List.lookup]
    · have hne : (v == a) = false := by simpa using hva
      simp [List.lookup, hne, hva]

/-! ## Generation of declarations and definitions -/

/-- The method `FunctionDefnAST::codeGen` on a name the module does not have: the new
function is appended with its entry block, and is erased again when the body
returns null. -/
theorem FunctionDefnAST_codeGen_fresh (fd : FunctionDefnAST) (s : CodeGenState)
    (h : getFunction s.module_Ob fd.func_decl.func_name = none) :
    fd.codeGen s =
      match fd.body.codeGen
          (s.module_Ob ++ [{ name := fd.func_decl.func_name,
                             arg_size := fd.func_decl.arguments.length,
                             blocks := [{ label := "enrty", ret := none }] }])
          (bindArguments fd.func_decl.arguments 0 []) with
      | .ok retVal =>
        (.ok s.module_Ob.length,
         { module_Ob := s.module_Ob ++ [{ name := fd.func_decl.func_name,
                                          arg_size := fd.func_decl.arguments.length,
                                          blocks := [{ label := "enrty", ret := some retVal }] }],
           named_Values := bindArguments fd.func_decl.arguments 0 [] })
      | .null e =>
        (.null e, { module_Ob := s.module_Ob,
                    named_Values := bindArguments fd.func_decl.arguments 0 [] })
      | .undefined =>
        (.undefined,
         { module_Ob := s.module_Ob ++ [{ name := fd.func_decl.func_name,
                                          arg_size := fd.func_decl.arguments.length,
                                          blocks := [{ label := "enrty", ret := none }] }],
           named_Values := bindArguments fd.func_decl.arguments 0 [] }) := by
  simp only [FunctionDefnAST.codeGen, FunctionDeclAST.codeGen, h, BasicBlock_Create,
    modify_append_last, List.nil_append]
  cases fd.body.codeGen _ _ with
  | ok v => simp [CreateRet, modify_append_last]
  | null e => simp [eraseFromParent, eraseIdx_append_last]
  | undefined => rfl

/-- The method `FunctionDefnAST::codeGen` on a name the module already has: null when
that function has a body or another number of arguments, and otherwise the
body is generated into that very function, which is erased when the body
returns null. -/
theorem FunctionDefnAST_codeGen_existing (fd : FunctionDefnAST) (s : CodeGenState)
    (f : Nat) (fn : Function) (h : getFunction s.module_Ob fd.func_decl.func_name = some (f, fn)) :
    fd.codeGen s =
      if !fn.empty then (.null .redefinition, { s with named_Values := [] })
      else if fn.arg_size ≠ fd.func_decl.arguments.length then
        (.null .parameterCountMismatch, { s with named_Values := [] })
      else
        match fd.body.codeGen (BasicBlock_Create "enrty" f s.module_Ob)
            (bindArguments fd.func_decl.arguments 0 []) with
        | .ok retVal =>
          (.ok f,
           { module_Ob := CreateRet retVal f (BasicBlock_Create "enrty" f s.module_Ob),
             named_Values := bindArguments fd.func_decl.arguments 0 [] })
        | .null e =>
          (.null e,
           { module_Ob := eraseFromParent f (BasicBlock_Create "enrty" f s.module_Ob),
             named_Values := bindArguments fd.func_decl.arguments 0 [] })
        | .undefined =>
          (.undefined,
           { module_Ob := BasicBlock_Create "enrty" f s.module_Ob,
             named_Values := bindArguments fd.func_decl.arguments 0 [] }) := by
  simp only [FunctionDefnAST.codeGen, FunctionDeclAST.codeGen, h]
  split_ifs with h1 h2
  · rfl
  · rfl
  · rfl

theorem FunctionDeclAST_codeGen_named_Values (d : FunctionDeclAST) (s : CodeGenState) (f : Nat)
    (s1 : CodeGenState) (h : d.codeGen s = (.ok f, s1)) :
    s1.named_Values = bindArguments d.arguments 0 s.named_Values := by
  unfold FunctionDeclAST.codeGen at h
  split at h
  · simp only [Prod.mk.injEq] at h
    rw [← h.2]
  · split_ifs at h
    · simp at h
    · simp at h
    · simp only [Prod.mk.injEq] at h
      rw [← h.2]

/-- C7: whatever `named_Values` holds from earlier functions, once the
declaration of a definition has been generated (from the cleared table), a
`VariableAST v` as its body generates a value exactly when `v` is one of the
definition's own argument names, and otherwise returns null as an unbound
variable; the same holds of the definition as a whole. -/
theorem scoping_reset (s : CodeGenState) (d : FunctionDeclAST) (v : String) (f : Nat)
    (s1 : CodeGenState) (hdecl : d.codeGen { s with named_Values := [] } = (.ok f, s1)) :
    ((∃ val, (BaseAST.VariableAST v).codeGen (BasicBlock_Create "enrty" f s1.module_Ob)
        s1.named_Values = .ok val) ↔ v ∈ d.arguments) ∧
    ((∃ fn s2, FunctionDefnAST.codeGen { func_decl := d, body := .VariableAST v } s = (.ok fn, s2))
      ↔ v ∈ d.arguments) ∧
    (v ∉ d.arguments →
      (FunctionDefnAST.codeGen { func_decl := d, body := .VariableAST v } s).1 =
        .null .unboundVariable) := by
  have hnv := FunctionDeclAST_codeGen_named_Values d _ f s1 hdecl
  have hl := lookup_bindArguments v d.arguments 0 []
  simp only [List.lookup, Option.isSome_none, Bool.false_eq_true, or_false] at hl
  rw [← hnv] at hl
  simp only [FunctionDefnAST.codeGen, hdecl, BaseAST.codeGen]
  cases hlook : List.lookup v s1.named_Values with
  | none =>
    have hv : v ∉ d.arguments := by
      intro hmem; have := hl.mpr hmem; simp [hlook] at this
    simp [hv]
  | some val =>
    have hv : v ∈ d.arguments := hl.mp (by simp [hlook])
    simp [hv]

/-- The claim C7 after `def f(x) x`: with `x` still bound in `named_Values`,
`def g(y) x` returns null because `x` is unbound. -/
theorem scoping_reset_witness :
    (FunctionDefnAST.codeGen
        { func_decl := { func_name := "g", arguments := ["y"] }, body := .VariableAST "x" }
        { module_Ob := [{ name := "f", arg_size := 1,
                          blocks := [{ label := "enrty", ret := some (.Argument 0) }] }],
          named_Values := [("x", .Argument 0)] }).1 = .null .unboundVariable :=
  (scoping_reset
    { module_Ob := [{ name := "f", arg_size := 1,
                      blocks := [{ label := "enrty", ret := some (.Argument 0) }] }],
      named_Values := [("x", .Argument 0)] }
    { func_name := "g", arguments := ["y"] } "x" 1
    { module_Ob := [{ name := "f", arg_size := 1,
                      blocks := [{ label := "enrty", ret := some (.Argument 0) }] },
                    { name := "g", arg_size := 1, blocks := [] }],
      named_Values := [("y", .Argument 0)] } rfl).2.2 (by decide)

/-- C10: for a definition whose name the module does not have, the
declaration is generated (as the new last function), and whenever the body
then returns null the definition returns null for the same reason and the
module is exactly the one from before, with no function of the new name. -/
theorem failed_definition_is_erased (fd : FunctionDefnAST) (s : CodeGenState)
    (hfresh : getFunction s.module_Ob fd.func_decl.func_name = none) :
    (fd.func_decl.codeGen { s with named_Values := [] }).1 = .ok s.module_Ob.length ∧
    ∀ e, fd.body.codeGen
        (BasicBlock_Create "enrty" s.module_Ob.length
          (fd.func_decl.codeGen { s with named_Values := [] }).2.module_Ob)
        (fd.func_decl.codeGen { s with named_Values := [] }).2.named_Values = .null e →
      (fd.codeGen s).1 = .null e ∧ (fd.codeGen s).2.module_Ob = s.module_Ob ∧
        getFunction (fd.codeGen s).2.module_Ob fd.func_decl.func_name = none := by
  refine ⟨by simp [FunctionDeclAST.codeGen, hfresh], ?_⟩
  intro e he
  simp only [FunctionDeclAST.codeGen, hfresh, BasicBlock_Create, modify_append_last,
    List.nil_append] at he
  rw [FunctionDefnAST_codeGen_fresh fd s hfresh, he]
  exact ⟨rfl, rfl, hfresh⟩

/-- The claim C10 at `def g(y) x` in a module holding only `f`: the body `x`
is unbound, the definition fails and the module still holds only `f`. -/
theorem failed_definition_is_erased_witness :
    (FunctionDefnAST.codeGen
        { func_decl := { func_name := "g", arguments := ["y"] }, body := .VariableAST "x" }
        { module_Ob := [{ name := "f", arg_size := 1,
                          blocks := [{ label := "enrty", ret := some (.Argument 0) }] }],
          named_Values := [] }).1 = .null .unboundVariable ∧
    (FunctionDefnAST.codeGen
        { func_decl := { func_name := "g", arguments := ["y"] }, body := .VariableAST "x" }
        { module_Ob := [{ name := "f", arg_size := 1,
                          blocks := [{ label := "enrty", ret := some (.Argument 0) }] }],
          named_Values := [] }).2.module_Ob =
      [{ name := "f", arg_size := 1,
         blocks := [{ label := "enrty", ret := some (.Argument 0) }] }] ∧
    getFunction (FunctionDefnAST.codeGen
        { func_decl := { func_name := "g", arguments := ["y"] }, body := .VariableAST "x" }
        { module_Ob := [{ name := "f", arg_size := 1,
                          blocks := [{ label := "enrty", ret := some (.Argument 0) }] }],
          named_Values := [] }).2.module_Ob "g" = none :=
  (failed_definition_is_erased
    { func_decl := { func_name := "g", arguments := ["y"] }, body := .VariableAST "x" }
    { module_Ob := [{ name := "f", arg_size := 1,
                      blocks := [{ label := "enrty", ret := some (.Argument 0) }] }],
      named_Values := [] } rfl).2 .unboundVariable rfl

theorem getFunction_eq_findFunction (m : Module) (name : String) (h : name ≠ "") :
    getFunction m name = findFunction name m := by
  simp [getFunction, h]

/-- After a definition has been generated, the module has a function of its
name with a body, at the position the definition returned. -/
theorem FunctionDefnAST_codeGen_ok_has_body (fd : FunctionDefnAST) (s s1 : CodeGenState) (f : Nat)
    (hname : fd.func_decl.func_name ≠ "") (hgen : fd.codeGen s = (.ok f, s1)) :
    (getFunction s1.module_Ob fd.func_decl.func_name).map (fun r => (r.1, r.2.empty)) =
      some (f, false) := by
  cases hget : getFunction s.module_Ob fd.func_decl.func_name with
  | none =>
    rw [FunctionDefnAST_codeGen_fresh fd s hget] at hgen
    rw [getFunction_eq_findFunction _ _ hname] at hget
    split at hgen
    · simp only [Prod.mk.injEq, GenResult.ok.injEq] at hgen
      obtain ⟨rfl, rfl⟩ := hgen
      rw [getFunction_eq_findFunction _ _ hname, findFunction_append_none _ _ _ hget, if_pos rfl]
      rfl
    · simp at hgen
    · simp at hgen
  | some r =>
    obtain ⟨i, fn⟩ := r
    rw [FunctionDefnAST_codeGen_existing fd s i fn hget] at hgen
    rw [getFunction_eq_findFunction _ _ hname] at hget
    split_ifs at hgen with h1 h2
    · simp at hgen
    · simp at hgen
    · split at hgen
      · simp only [Prod.mk.injEq, GenResult.ok.injEq] at hgen
        obtain ⟨rfl, rfl⟩ := hgen
        rw [getFunction_eq_findFunction _ _ hname]
        unfold CreateRet BasicBlock_Create
        rw [findFunction_modify _ _ ?_, findFunction_modify _ _ ?_, hget]
        · simp [Function.empty, List.isEmpty_iff]
        · intro x; rfl
        · intro x; rfl
      · simp at hgen
      · simp at hgen

/-- C6: once a definition with a (non-empty) name has been generated, so
that the module has that function with a body, generating a second
definition of the same name, with any arguments and body, returns null as a
redefinition and leaves the module exactly as it was. -/
theorem redefinition_fails (s s1 : CodeGenState) (fd1 fd2 : FunctionDefnAST) (f : Nat)
    (hname : fd1.func_decl.func_name ≠ "")
    (hsame : fd2.func_decl.func_name = fd1.func_decl.func_name)
    (hgen : fd1.codeGen s = (.ok f, s1)) :
    fd2.codeGen s1 = (.null .redefinition, { module_Ob := s1.module_Ob, named_Values := [] }) := by
  have h := FunctionDefnAST_codeGen_ok_has_body fd1 s s1 f hname hgen
  rw [← hsame] at h
  cases hget : getFunction s1.module_Ob fd2.func_decl.func_name with
  | none => simp [hget] at h
  | some r =>
    obtain ⟨i, fn⟩ := r
    simp only [hget, Option.map_some', Option.some.injEq, Prod.mk.injEq] at h
    rw [FunctionDefnAST_codeGen_existing fd2 s1 i fn hget]
    simp [h.2]

/-- The claim C6 at `def f(a) a` generated into the empty module and then
`def f(x y) 7`: the second definition is a redefinition and the module is
still the one function `f`. -/
theorem redefinition_fails_witness :
    FunctionDefnAST.codeGen
        { func_decl := { func_name := "f", arguments := ["x", "y"] }, body := .NumericAST 7 }
        { module_Ob := [{ name := "f", arg_size := 1,
                          blocks := [{ label := "enrty", ret := some (.Argument 0) }] }],
          named_Values := [("a", .Argument 0)] } =
      (.null .redefinition,
       { module_Ob := [{ name := "f", arg_size := 1,
                         blocks := [{ label := "enrty", ret := some (.Argument 0) }] }],
         named_Values := [] }) :=
  redefinition_fails { module_Ob := [], named_Values := [] } _
    { func_decl := { func_name := "f", arguments := ["a"] }, body := .VariableAST "a" }
    { func_decl := { func_name := "f", arguments := ["x", "y"] }, body := .NumericAST 7 } 0
    (by decide) rfl rfl

theorem map_name_modify (g : Function → Function) (hg : ∀ x, (g x).name = x.name) :
    ∀ (m : List Function) (i : Nat),
      (List.modify g i m).map Function.name = m.map Function.name := by
  intro m
  induction m with
  | nil => intro i; simp
  | cons a m ih =>
    intro i
    cases i with
    | zero => simp [hg]
    | succ i => simp [ih]

/-! ## Forward declarations -/

/-- C4, as the code behaves: the top-level call `f(1)` parses to the unnamed
definition with body `f(1)`; generated into the empty module, the callee
lookup finds nothing, `CreateCall` is reached with the null callee, and the
module holds the unnamed function alone: no `f` has been declared. -/
theorem bare_call_declares_nothing :
    top_level_parser_fn 6 (next_token (initialState "f(1)".data)) =
      some (some { func_decl := { func_name := "", arguments := [] },
                   body := .FunctionCallAST "f" [.NumericAST 1] },
            { lex := atText [] "f" 1, current_token := EOF_TOKEN }) ∧
    FunctionDefnAST.codeGen
        { func_decl := { func_name := "", arguments := [] },
          body := .FunctionCallAST "f" [.NumericAST 1] }
        { module_Ob := [], named_Values := [] } =
      (.undefined,
       { module_Ob := [{ name := "", arg_size := 0,
                         blocks := [{ label := "enrty", ret := none }] }],
         named_Values := [] }) ∧
    getFunction [{ name := "", arg_size := 0, blocks := [{ label := "enrty", ret := none }] }]
      "f" = none :=
  ⟨rfl, rfl, rfl⟩

/-- C4, amended: in a module where `f` is declared with one argument and no
body (a state no call produces), `def f(a) a` parses to the definition of `f`
with argument `a` and body `a`, and its generation returns that very function,
which now has the body `ret` of its argument; no function is added or renamed,
so a module with exactly one function named `f` still has exactly one. -/
theorem definition_reuses_declaration (m : Module) (nv : List (String × Value)) (i k : Nat)
    (hget : getFunction m "f" = some (i, { name := "f", arg_size := 1, blocks := [] }))
    (hone : (m.map Function.name).count "f" = 1) :
    func_defn_parser_fn (3 + k) (next_token (initialState "def f(a) a".data)) =
      some (some { func_decl := { func_name := "f", arguments := ["a"] },
                   body := .VariableAST "a" },
            { lex := atText [] "a" 0, current_token := EOF_TOKEN }) ∧
    (FunctionDefnAST.codeGen
        { func_decl := { func_name := "f", arguments := ["a"] }, body := .VariableAST "a" }
        { module_Ob := m, named_Values := nv }).1 = .ok i ∧
    (FunctionDefnAST.codeGen
        { func_decl := { func_name := "f", arguments := ["a"] }, body := .VariableAST "a" }
        { module_Ob := m, named_Values := nv }).2.module_Ob.get? i =
      some { name := "f", arg_size := 1,
             blocks := [{ label := "enrty", ret := some (.Argument 0) }] } ∧
    (FunctionDefnAST.codeGen
        { func_decl := { func_name := "f", arguments := ["a"] }, body := .VariableAST "a" }
        { module_Ob := m, named_Values := nv }).2.module_Ob.map Function.name =
      m.map Function.name ∧
    ((FunctionDefnAST.codeGen
        { func_decl := { func_name := "f", arguments := ["a"] }, body := .VariableAST "a" }
        { module_Ob := m, named_Values := nv }).2.module_Ob.map Function.name).count "f" = 1 := by
  have hm : m.get? i = some { name := "f", arg_size := 1, blocks := [] } :=
    (findFunction_some "f" m i _ (by simpa [getFunction] using hget)).1
  have hgen := FunctionDefnAST_codeGen_existing
    { func_decl := { func_name := "f", arguments := ["a"] }, body := .VariableAST "a" }
    { module_Ob := m, named_Values := nv } i _ hget
  have hbody : (BaseAST.VariableAST "a").codeGen (BasicBlock_Create "enrty" i m)
      (bindArguments ["a"] 0 []) = .ok (.Argument 0) := rfl
  simp only [Function.empty, List.isEmpty_nil, Bool.not_true, Bool.false_eq_true, if_false,
    List.length_singleton, ne_eq, not_true_eq_false, hbody] at hgen
  have hnames : (CreateRet (.Argument 0) i (BasicBlock_Create "enrty" i m)).map Function.name =
      m.map Function.name := by
    unfold CreateRet BasicBlock_Create
    rw [map_name_modify _ ?_, map_name_modify _ ?_]
    · intro x; rfl
    · intro x; rfl
  refine ⟨func_defn_parser_fuel_le (Nat.le_add_right 3 k) _ _ rfl, ?_, ?_, ?_, ?_⟩
  · rw [hgen]
  · rw [hgen]
    simp only [CreateRet, BasicBlock_Create, List.get?_eq_getElem?, List.getElem?_modify_eq]
    rw [List.get?_eq_getElem?] at hm
    simp [hm]
  · rw [hgen]; exact hnames
  · rw [hgen]; simp only [hnames, hone]

/-- The claim C4 as amended, in the module holding only the declaration of
`f`. -/
theorem definition_reuses_declaration_witness :
    (FunctionDefnAST.codeGen
        { func_decl := { func_name := "f", arguments := ["a"] }, body := .VariableAST "a" }
        { module_Ob := [{ name := "f", arg_size := 1, blocks := [] }],
          named_Values := [] }).1 = .ok 0 :=
  (definition_reuses_declaration [{ name := "f", arg_size := 1, blocks := [] }] [] 0 0
    rfl rfl).2.1

/-- C5, as the code behaves: `func_decl_parser_fn` collects argument names while
the next token is an identifier and then requires `)`; in `def f(a,b) a` the
token after `a` is the comma (code `44`), so the parser returns null and the
text is no definition of `f` with two arguments. -/
theorem comma_in_declaration_is_rejected :
    func_defn_parser_fn 5 (next_token (initialState "def f(a,b) a".data)) =
      some (none, { lex := atText ['b', ')', ' ', 'a'] "a" 0, current_token := 44 }) :=
  rfl

/-- C5, amended: with the arguments separated by white space, `def f(a b) a`
parses to the definition of `f` with the two arguments `a` and `b`, and in a
module where `f` is declared with one argument and no body its generation
returns null as a parameter-count mismatch, in `FunctionDeclAST::codeGen` and
so in `FunctionDefnAST::codeGen`, leaving the module as it was. -/
theorem argument_count_mismatch_fails (m : Module) (nv : List (String × Value)) (i k : Nat)
    (fn : Function) (hget : getFunction m "f" = some (i, fn)) (hempty : fn.blocks = [])
    (hsize : fn.arg_size = 1) :
    func_defn_parser_fn (3 + k) (next_token (initialState "def f(a b) a".data)) =
      some (some { func_decl := { func_name := "f", arguments := ["a", "b"] },
                   body := .VariableAST "a" },
            { lex := atText [] "a" 0, current_token := EOF_TOKEN }) ∧
    FunctionDeclAST.codeGen { func_name := "f", arguments := ["a", "b"] }
        { module_Ob := m, named_Values := [] } =
      (.error .parameterCountMismatch, { module_Ob := m, named_Values := [] }) ∧
    FunctionDefnAST.codeGen
        { func_decl := { func_name := "f", arguments := ["a", "b"] }, body := .VariableAST "a" }
        { module_Ob := m, named_Values := nv } =
      (.null .parameterCountMismatch, { module_Ob := m, named_Values := [] }) := by
  refine ⟨func_defn_parser_fuel_le (Nat.le_add_right 3 k) _ _ rfl, ?_, ?_⟩
  · simp [FunctionDeclAST.codeGen, hget, Function.empty, hempty, hsize]
  · rw [FunctionDefnAST_codeGen_existing _ _ i fn hget]
    simp [Function.empty, hempty, hsize]

/-- The claim C5 as amended, in the module holding only the declaration of
`f` with one argument. -/
theorem argument_count_mismatch_fails_witness :
    FunctionDefnAST.codeGen
        { func_decl := { func_name := "f", arguments := ["a", "b"] }, body := .VariableAST "a" }
        { module_Ob := [{ name := "f", arg_size := 1, blocks := [] }], named_Values := [] } =
      (.null .parameterCountMismatch,
       { module_Ob := [{ name := "f", arg_size := 1, blocks := [] }], named_Values := [] }) :=
  (argument_count_mismatch_fails [{ name := "f", arg_size := 1, blocks := [] }] [] 0 0
    { name := "f", arg_size := 1, blocks := [] } rfl rfl rfl).2.2

/-! ## The driver -/

/-- C8: on `def (` followed by `def g(x) x` (on the next line, or after a
blank) the driver handles two units, the first a parse failure and the second
the generated definition of `g`, and returns at the end of the input with a
module holding exactly the function `g`, of one argument, whose body returns
that argument. -/
theorem driver_resumes_after_malformed_unit (k : Nat) :
    main (5 + k) "def (\ndef g(x) x".data = some (.returned
      { parser := { lex := atText [] "x" 0, current_token := EOF_TOKEN },
        gen :=
          { module_Ob := [{ name := "g", arg_size := 1,
                            blocks := [{ label := "enrty", ret := some (.Argument 0) }] }],
            named_Values := [("x", .Argument 0)] },
        units :=
          [.parseFailed,
           .generated { func_decl := { func_name := "g", arguments := ["x"] },
                        body := .VariableAST "x" }] }) ∧
    main (5 + k) "def ( def g(x) x".data = some (.returned
      { parser := { lex := atText [] "x" 0, current_token := EOF_TOKEN },
        gen :=
          { module_Ob := [{ name := "g", arg_size := 1,
                            blocks := [{ label := "enrty", ret := some (.Argument 0) }] }],
            named_Values := [("x", .Argument 0)] },
        units :=
          [.parseFailed,
           .generated { func_decl := { func_name := "g", arguments := ["x"] },
                        body := .VariableAST "x" }] }) :=
  ⟨main_fuel_le (Nat.le_add_right 5 k) _ _ rfl, main_fuel_le (Nat.le_add_right 5 k) _ _ rfl⟩

/-! ## Calls -/

/-- A call of a name the module does not have: null when an argument returns
null, and otherwise `CreateCall` is reached with the null callee. -/
theorem FunctionCallAST_codeGen_unknown (m : Module) (nv : List (String × Value))
    (callee : String) (args : List BaseAST) (h : getFunction m callee = none) :
    BaseAST.codeGen m nv (.FunctionCallAST callee args) =
      match BaseAST.codeGenArgs m nv args with
      | .null e => .null e
      | _ => .undefined := by
  rw [BaseAST.codeGen, h]
  cases BaseAST.codeGenArgs m nv args <;> rfl

/-- C9, as the code behaves: `FunctionCallAST::codeGen` does not test
`calleeF`.  For `g(1)` in the empty module the argument generates, the lookup
of `g` is null and `CreateCall` is reached with it: the result is neither a
value nor a null pointer, and the run of the driver on `g(1)` ends there. -/
theorem unknown_callee_reaches_CreateCall (k : Nat) :
    getFunction [] "g" = none ∧
    BaseAST.codeGenArgs [] [] [.NumericAST 1] = .ok [.ConstantInt 1] ∧
    BaseAST.codeGen [] [] (.FunctionCallAST "g" [.NumericAST 1]) = .undefined ∧
    main (7 + k) "g(1)".data = some (.undefined
      { parser := { lex := atText [] "g" 1, current_token := EOF_TOKEN },
        gen :=
          { module_Ob := [{ name := "", arg_size := 0,
                            blocks := [{ label := "enrty", ret := none }] }],
            named_Values := [] },
        units := [] }) :=
  ⟨rfl, rfl, rfl, main_fuel_le (Nat.le_add_right 7 k) _ _ rfl⟩

/-! ## Words -/

theorem readIdentifier_alnum (cs rest : List Char) (hcs : allAlnum cs)
    (hr : headNot isalnum rest) : ∀ (ident : String),
      readIdentifier (cs ++ rest) ident = (⟨ident.data ++ cs⟩, (fgetc rest).1, (fgetc rest).2) := by
  induction cs with
  | nil =>
    intro ident
    cases rest with
    | nil => simp [readIdentifier, fgetc]
    | cons c r =>
      have hc : isalnum (c.toNat : Int) = false := hr c (by simp)
      simp [readIdentifier, fgetc, hc]
  | cons a cs ih =>
    intro ident
    have ha : isalnum (a.toNat : Int) = true := hcs a (by simp)
    rw [List.cons_append, readIdentifier, if_pos ha, ih (fun c hc => hcs c (by simp [hc]))]
    simp [String.push, toChar_toNat]

theorem isalpha_not_isspace (c : Int) (h : isalpha c = true) : isspace c = false := by
  simp only [isalpha, isspace, Bool.and_eq_true, decide_eq_true_eq, Bool.or_eq_false_iff,
    beq_eq_false_iff_ne, Bool.and_eq_false_iff, decide_eq_false_iff_not, Bool.or_eq_true] at *
  omega

theorem isspace_not_isalnum (c : Int) (h : isspace c = true) : isalnum c = false := by
  simp only [isalnum, isalpha, isdigit, isspace, Bool.and_eq_true, decide_eq_true_eq,
    Bool.or_eq_false_iff, beq_iff_eq, Bool.and_eq_false_iff, decide_eq_false_iff_not,
    Bool.or_eq_true] at *
  omega

/-- Scanning white space `w`, a word and then something that is neither a
letter nor a digit yields `DEF_TOKEN` for the word `def` and `IDENTIFIER_TOKEN`
for any other, with the word in `identifier_string` and the cursor on the
first character after it. -/
theorem get_token_word (w x rest : List Char) (ident : String) (num : Int)
    (hw : allSpace w) (hx : isWord x) (hr : headNot isalnum rest) :
    get_token (atText (w ++ x ++ rest) ident num) =
      (if x = ['d', 'e', 'f'] then DEF_TOKEN else IDENTIFIER_TOKEN, atText rest ⟨x⟩ num) := by
  cases x with
  | nil => exact absurd hx (by simp [isWord])
  | cons a x =>
    obtain ⟨ha, hx1⟩ := hx
    have hsk := skipSpaces_fgetc w (a :: x ++ rest) hw
      (fun c hc => by simp at hc; subst hc; exact isalpha_not_isspace _ ha)
    rw [List.append_assoc]
    simp only [get_token, get_token_fuel, atText, hsk]
    simp only [fgetc_cons, List.cons_append, ha, if_true]
    rw [readIdentifier_alnum x rest hx1 hr]
    have hs : ((⟨(String.singleton a).data ++ x⟩ : String) == "def") =
        decide (a :: x = ['d', 'e', 'f']) := by
      by_cases h : a :: x = ['d', 'e', 'f']
      · simp only [h, decide_True]
        have hx0 : x = ['e', 'f'] := (List.cons.inj h).2
        have ha0 : a = 'd' := (List.cons.inj h).1
        subst hx0; subst ha0; decide
      · simp only [h, decide_False, beq_eq_false_iff_ne, ne_eq]
        intro hcon
        apply h
        have := congrArg String.data hcon
        simpa [String.singleton] using this
    simp only [toChar_toNat, hs, decide_eq_true_eq]
    split_ifs <;> simp [String.singleton]

theorem isalpha_not_isdigit (c : Int) (h : isalpha c = true) : isdigit c = false := by
  cases hd : isdigit c with
  | false => rfl
  | true => rw [isdigit_not_isalpha c hd] at h; exact absurd h (by decide)

/-- C16: a non-empty digit string `d` with value in the `int` range,
immediately followed by a word `w` (and then by anything that is neither a
letter nor a digit), is scanned without complaint as two tokens: first
`NUMERIC_TOKEN` with `numeric_val` the decimal value of `d`, then
`IDENTIFIER_TOKEN` with `identifier_string` the text `w`, `DEF_TOKEN` when `w`
is exactly `def`. -/
theorem digits_then_word (d w rest : List Char) (hd : isLiteral d)
    (hrange : decimalValue ⟨d⟩ < 2 ^ 31) (hw : isWord w) (hr : headNot isalnum rest) :
    get_token (initialState (d ++ w ++ rest)).lex =
      (NUMERIC_TOKEN, atText (w ++ rest) "" (decimalValue ⟨d⟩ : Int)) ∧
    get_token (atText (w ++ rest) "" (decimalValue ⟨d⟩ : Int)) =
      (if w = ['d', 'e', 'f'] then DEF_TOKEN else IDENTIFIER_TOKEN,
       atText rest ⟨w⟩ (decimalValue ⟨d⟩ : Int)) := by
  have hnd : headNot isdigit (w ++ rest) := by
    cases w with
    | nil => exact absurd hw (by simp [isWord])
    | cons a w => exact headNot_cons _ _ _ (isalpha_not_isdigit _ hw.1)
  have h1 := get_token_number [' '] d (w ++ rest) "" 0 (allSpace_cons_space [] allSpace_nil) hd hnd
  have h2 := get_token_word [] w rest "" (decimalValue ⟨d⟩ : Int) allSpace_nil hw hr
  have hv : strtod_int ⟨d⟩ = (decimalValue ⟨d⟩ : Int) := by
    unfold strtod_int
    rw [if_pos hrange]
  rw [hv] at h1
  refine ⟨?_, ?_⟩
  · rw [initialState_eq, List.append_assoc]
    exact h1
  · rw [List.nil_append] at h2
    exact h2

/-- The claim C16 at `12ab` and at `7def`. -/
theorem digits_then_word_witness :
    (get_token (initialState "12ab".data).lex = (NUMERIC_TOKEN, atText ['a', 'b'] "" 12) ∧
      get_token (atText ['a', 'b'] "" 12) = (IDENTIFIER_TOKEN, atText [] "ab" 12)) ∧
    (get_token (initialState "7def".data).lex = (NUMERIC_TOKEN, atText ['d', 'e', 'f'] "" 7) ∧
      get_token (atText ['d', 'e', 'f'] "" 7) = (DEF_TOKEN, atText [] "def" 7)) :=
  ⟨digits_then_word ['1', '2'] ['a', 'b'] [] (by decide) (by decide) (by decide)
     (headNot_nil _),
   digits_then_word ['7'] ['d', 'e', 'f'] [] (by decide) (by decide) (by decide)
     (headNot_nil _)⟩

/-! ## Comments and end of input -/

theorem char_eq_of_toNat (a b : Char) (h : a.toNat = b.toNat) : a = b := by
  rw [← Char.ofNat_toNat a, ← Char.ofNat_toNat b, h]

theorem skipComment_line (c r : List Char) (t : Char) (hc : ∀ x ∈ c, x ≠ '\n' ∧ x ≠ '\r')
    (ht : t = '\n' ∨ t = '\r') : skipComment (c ++ t :: r) = ((t.toNat : Int), r) := by
  induction c with
  | nil =>
    rcases ht with h | h <;> subst h <;> simp [skipComment]
  | cons a c ih =>
    have ha := hc a (by simp)
    have h10 : ((a.toNat : Int) != 10) = true := by
      simp only [bne_iff_ne, ne_eq, Nat.cast_eq_ofNat]
      intro h
      exact ha.1 (char_eq_of_toNat _ _ (by exact_mod_cast h))
    have h13 : ((a.toNat : Int) != 13) = true := by
      simp only [bne_iff_ne, ne_eq, Nat.cast_eq_ofNat]
      intro h
      exact ha.2 (char_eq_of_toNat _ _ (by exact_mod_cast h))
    rw [List.cons_append, skipComment, h10, h13]
    simpa using ih (fun x hx => hc x (by simp [hx]))

/-- A call of `get_token` depends on `lastChar` and `source` only through what
is left once the white space is skipped. -/
theorem get_token_fuel_congr (n : Nat) (s1 s2 : LexState)
    (hsk : skipSpaces s1.source s1.lastChar = skipSpaces s2.source s2.lastChar)
    (hi : s1.identifier_string = s2.identifier_string) (hn : s1.numeric_val = s2.numeric_val) :
    get_token_fuel (n + 1) s1 = get_token_fuel (n + 1) s2 := by
  simp only [get_token_fuel, hsk, hi, hn]

/-- C12: for a comment text `c` without line terminator and any remaining
input `r`, the first call of `get_token` on `#c` followed by a line terminator
and `r` returns the same token and leaves the same state as on `r` alone, so
the two inputs give the same token sequence; and `# ignore\n5` gives the
token sequence `NUMERIC_TOKEN` with value 5, `EOF_TOKEN`. -/
theorem comment_is_skipped (c r : List Char) (t : Char)
    (hc : ∀ x ∈ c, x ≠ '\n' ∧ x ≠ '\r') (ht : t = '\n' ∨ t = '\r') :
    get_token (initialState ('#' :: (c ++ t :: r))).lex = get_token (initialState r).lex ∧
    (∀ fuel, tokenStream fuel (initialState ('#' :: (c ++ t :: r))).lex =
      tokenStream fuel (initialState r).lex) ∧
    tokenStream 2 (initialState "# ignore\n5".data).lex =
      [(NUMERIC_TOKEN, "", 5), (EOF_TOKEN, "", 5)] := by
  have hts : isspace (t.toNat : Int) = true := by
    rcases ht with h | h <;> subst h <;> decide
  have hne : ((t.toNat : Int) != EOF) = true := by
    rcases ht with h | h <;> subst h <;> decide
  have h1 : get_token (initialState ('#' :: (c ++ t :: r))).lex = get_token (initialState r).lex := by
    have hlen : r.length < (c ++ t :: r).length := by simp; omega
    have e1 : get_token (initialState ('#' :: (c ++ t :: r))).lex =
        get_token_fuel ((c ++ t :: r).length + 1)
          { source := r, lastChar := (t.toNat : Int), identifier_string := "", numeric_val := 0 } := by
      have hsk : skipSpaces (c ++ t :: r) 35 = (35, c ++ t :: r) :=
        skipSpaces_of_not_space _ _ (by decide)
      unfold get_token
      rw [get_token_fuel]
      simp only [initialState, skipSpaces, show isspace 32 = true from by decide, if_true,
        show ('#'.toNat : Int) = 35 from rfl, hsk, show isalpha 35 = false from by decide,
        show isdigit 35 = false from by decide, Bool.false_eq_true, if_false, beq_self_eq_true,
        skipComment_line c r t hc ht, hne, Bool.and_self, List.length_cons]
    rw [e1]
    rw [get_token_eq_fuel ((c ++ t :: r).length + 1) (initialState r).lex
      (by simp [initialState]; omega)]
    apply get_token_fuel_congr
    · cases r <;> simp [initialState, skipSpaces, hts, show isspace 32 = true from by decide]
    · rfl
    · rfl
  refine ⟨h1, ?_, by decide⟩
  intro fuel
  cases fuel with
  | zero => rfl
  | succ fuel => simp only [tokenStream, h1]

/-- The claim C12 at `# ignore` followed by a newline and `5`. -/
theorem comment_is_skipped_witness :
    get_token (initialState "# ignore\n5".data).lex = get_token (initialState "5".data).lex :=
  (comment_is_skipped " ignore".data "5".data '\n' (by decide) (by decide)).1

/-- At the end of the input, `lastChar` being `EOF`, a call of `get_token`
returns `EOF_TOKEN` and leaves the state as it is, with no call of `fgetc`. -/
theorem get_token_at_EOF (s : LexState) (h : s.lastChar = EOF) : get_token s = (EOF_TOKEN, s) := by
  unfold get_token
  rw [get_token_fuel, h, skipSpaces_of_not_space _ _ isspace_EOF]
  simp only [isalpha_EOF, isdigit_EOF, Bool.false_eq_true, if_false,
    show (EOF == 35) = false from by decide, Bool.false_and, beq_self_eq_true, if_true]
  cases s
  simp only at h
  simp [h]

/-- C13, as the code behaves: the token codes and the character codes
overlap, `EOF_TOKEN` being `0`, the code of the NUL character that `get_token`
returns like any other punctuation.  On the input NUL, `5` the first call
returns `EOF_TOKEN` with `5` unread, and the next call reads on and returns
`NUMERIC_TOKEN`. -/
theorem NUL_is_returned_as_EOF_TOKEN :
    get_token (initialState [Char.ofNat 0, '5']).lex = (EOF_TOKEN, atText ['5'] "" 0) ∧
    get_token (atText ['5'] "" 0) = (NUMERIC_TOKEN, atText [] "" 5) := by
  decide

/-! ## Reconciliation of declarations -/

theorem findFunction_eq_none_iff (name : String) : ∀ (m : List Function),
    findFunction name m = none ↔ ∀ fn ∈ m, fn.name ≠ name := by
  intro m
  induction m with
  | nil => simp [findFunction]
  | cons a m ih =>
    rw [findFunction]
    by_cases ha : a.name = name
    · simp [ha]
    · simp [ha, ih]

theorem findFunction_isSome_iff (name : String) (m : List Function) :
    (∃ fn ∈ m, fn.name = name) ↔
      ∃ i fn, findFunction name m = some (i, fn) ∧ m.get? i = some fn ∧ fn.name = name := by
  constructor
  · intro h
    cases hf : findFunction name m with
    | none =>
      obtain ⟨fn, hmem, hn⟩ := h
      exact absurd hn ((findFunction_eq_none_iff name m).mp hf fn hmem)
    | some r =>
      obtain ⟨i, fn⟩ := r
      exact ⟨i, fn, rfl, findFunction_some name m i fn hf⟩
  · rintro ⟨i, fn, _, hget, hn⟩
    exact ⟨fn, List.get?_mem hget, hn⟩

/-- C11: for a declaration with a non-empty name, the module has a function
of that name exactly when `getFunction` finds one; generation then returns
null as a redefinition if the function found has a body, null as a
parameter-count mismatch if it has none but another number of arguments, and
otherwise returns the function found, the module unchanged; when the module
has no function of that name, a new function with one argument per declared
name is appended and returned. -/
theorem declaration_reconciles (d : FunctionDeclAST) (s : CodeGenState)
    (hname : d.func_name ≠ "") :
    ((∃ fn ∈ s.module_Ob, fn.name = d.func_name) ↔
      ∃ i fn, getFunction s.module_Ob d.func_name = some (i, fn) ∧
        s.module_Ob.get? i = some fn ∧ fn.name = d.func_name) ∧
    (∀ i fn, getFunction s.module_Ob d.func_name = some (i, fn) →
      (fn.empty = false → d.codeGen s = (.error .redefinition, s)) ∧
      (fn.empty = true → fn.arg_size ≠ d.arguments.length →
        d.codeGen s = (.error .parameterCountMismatch, s)) ∧
      (fn.empty = true → fn.arg_size = d.arguments.length →
        d.codeGen s = (.ok i, { module_Ob := s.module_Ob,
                                named_Values := bindArguments d.arguments 0 s.named_Values }))) ∧
    ((∀ fn ∈ s.module_Ob, fn.name ≠ d.func_name) →
      d.codeGen s =
        (.ok s.module_Ob.length,
         { module_Ob := s.module_Ob ++
             [{ name := d.func_name, arg_size := d.arguments.length, blocks := [] }],
           named_Values := bindArguments d.arguments 0 s.named_Values })) := by
  refine ⟨?_, ?_, ?_⟩
  · rw [getFunction_eq_findFunction _ _ hname]
    exact findFunction_isSome_iff _ _
  · intro i fn hget
    refine ⟨?_, ?_, ?_⟩
    · intro he
      simp [FunctionDeclAST.codeGen, hget, he]
    · intro he hsz
      simp [FunctionDeclAST.codeGen, hget, he, hsz]
    · intro he hsz
      simp [FunctionDeclAST.codeGen, hget, he, hsz]
  · intro hnone
    have hget : getFunction s.module_Ob d.func_name = none := by
      rw [getFunction_eq_findFunction _ _ hname]
      exact (findFunction_eq_none_iff _ _).mpr hnone
    simp [FunctionDeclAST.codeGen, hget]

/-- The claim C11 for a declaration `f(a b)`: against a module where `f` has
a body it is a redefinition. -/
theorem declaration_reconciles_witness :
    FunctionDeclAST.codeGen { func_name := "f", arguments := ["a", "b"] }
        { module_Ob := [{ name := "f", arg_size := 2,
                          blocks := [{ label := "enrty", ret := some (.Argument 0) }] }],
          named_Values := [] } =
      (.error .redefinition,
       { module_Ob := [{ name := "f", arg_size := 2,
                         blocks := [{ label := "enrty", ret := some (.Argument 0) }] }],
         named_Values := [] }) :=
  ((declaration_reconciles { func_name := "f", arguments := ["a", "b"] }
      { module_Ob := [{ name := "f", arg_size := 2,
                        blocks := [{ label := "enrty", ret := some (.Argument 0) }] }],
        named_Values := [] } (by decide)).2.1 0 _ rfl).1 rfl

/-! ## Function declarations -/

theorem next_token_word (w x rest : List Char) (ident : String) (num tok : Int)
    (hw : allSpace w) (hx : isIdentifier x) (hr : headNot isalnum rest) :
    next_token { lex := atText (w ++ x ++ rest) ident num, current_token := tok } =
      { lex := atText rest ⟨x⟩ num, current_token := IDENTIFIER_TOKEN } := by
  unfold next_token
  rw [get_token_word w x rest ident num hw hx.1 hr, if_neg hx.2]

theorem next_token_punct (w rest : List Char) (c : Char) (ident : String) (num tok : Int)
    (hw : allSpace w) (hc : c = '(' ∨ c = ')' ∨ c = ',' ∨ c = ';') :
    next_token { lex := atText (w ++ c :: rest) ident num, current_token := tok } =
      { lex := atText rest ident num, current_token := (c.toNat : Int) } := by
  have h : isspace (c.toNat : Int) = false ∧ isalpha (c.toNat : Int) = false ∧
      isdigit (c.toNat : Int) = false ∧ (c.toNat : Int) ≠ 35 := by
    rcases hc with h | h | h | h <;> subst h <;> decide
  unfold next_token
  rw [get_token_punct w rest c ident num hw h.1 h.2.1 h.2.2.1 h.2.2.2]

theorem headNot_isalnum_punct (w rest : List Char) (c : Char) (hw : allSpace w)
    (hc : isalnum (c.toNat : Int) = false) : headNot isalnum (w ++ c :: rest) :=
  headNot_space_append _ _ _ hw isspace_not_isalnum (headNot_cons _ _ _ hc)

/-- The loop of `func_decl_parser` over a well written parameter list: it
collects the names in order and stops with `)` as the current token. -/
theorem func_decl_args_params : ∀ (ps : List (List Char × List Char)), paramsOK ps →
    ∀ (w1 rest : List Char) (names : List String) (ident : String) (num tok : Int) (fuel : Nat),
      allSpace w1 → ps.length + 1 ≤ fuel →
      func_decl_args fuel names
          { lex := atText (w1 ++ paramsText ps ++ ')' :: rest) ident num, current_token := tok } =
        some (names ++ ps.map (fun q => (⟨q.1⟩ : String)),
              { lex := atText rest (lastIdent ident ps) num, current_token := 41 }) := by
  intro ps
  induction ps with
  | nil =>
    intro _ w1 rest names ident num tok fuel hw1 hfuel
    obtain ⟨n, rfl⟩ : ∃ n, fuel = n + 1 := ⟨fuel - 1, by simp at hfuel; omega⟩
    have e := next_token_punct w1 rest ')' ident num tok hw1 (by simp)
    simp only [paramsText, List.append_nil]
    rw [func_decl_args]
    simp only [e]
    simp [IDENTIFIER_TOKEN, lastIdent]
  | cons q ps ih =>
    intro hok w1 rest names ident num tok fuel hw1 hfuel
    obtain ⟨p, w⟩ := q
    obtain ⟨hp, hw, hlast, hrest⟩ := hok
    obtain ⟨n, rfl⟩ : ∃ n, fuel = n + 1 := ⟨fuel - 1, by simp at hfuel; omega⟩
    have hhead : headNot isalnum (w ++ paramsText ps ++ ')' :: rest) := by
      cases w with
      | nil =>
        rw [hlast rfl]
        exact headNot_cons _ _ _ (by decide)
      | cons a w =>
        exact headNot_cons _ _ _ (isspace_not_isalnum _ (hw a (by simp)))
    have e := next_token_word w1 p (w ++ paramsText ps ++ ')' :: rest) ident num tok hw1 hp hhead
    have htext : w1 ++ paramsText ((p, w) :: ps) ++ ')' :: rest =
        w1 ++ p ++ (w ++ paramsText ps ++ ')' :: rest) := by
      simp [paramsText, List.append_assoc]
    rw [htext, func_decl_args]
    simp only [e, if_true]
    rw [ih hrest w rest _ _ num IDENTIFIER_TOKEN n hw (by simp at hfuel ⊢; omega)]
    simp [lastIdent, atText]

theorem func_decl_args_stops : ∀ (fuel : Nat) (names : List String) (s : ParserState)
    (r : List String × ParserState), func_decl_args fuel names s = some r →
      r.2.current_token ≠ IDENTIFIER_TOKEN := by
  intro fuel
  induction fuel with
  | zero => intro names s r h; simp [func_decl_args] at h
  | succ n ih =>
    intro names s r h
    rw [func_decl_args] at h
    split_ifs at h with h1
    · exact ih _ _ _ h
    · simp only [Option.some.injEq] at h
      rw [← h]
      exact h1

/-- C14: on `n(p1 ... pk)`, the name an identifier and the parameter names
identifiers separated by white space, `func_decl_parser` returns the
declaration of `n` with the names in order and has consumed the closing `)`
(the state is that after the `next_token()` which follows it).  It returns
null when the current token is not an identifier, when the token after the
name is not `(`, and when the token that ends the run of parameter names,
never an identifier, is not `)`; this is so for the comma in `f(a,b)`. -/
theorem func_decl_parser_shape (n wn w0 w1 rest : List Char)
    (ps : List (List Char × List Char)) (ident : String) (num tok : Int) (fuel : Nat)
    (hn : isIdentifier n) (hps : paramsOK ps) (hwn : allSpace wn) (hw0 : allSpace w0)
    (hw1 : allSpace w1) (hfuel : ps.length + 1 ≤ fuel) :
    func_decl_parser_fn fuel
        (next_token { lex := atText (wn ++ n ++ (w0 ++ '(' :: (w1 ++ paramsText ps ++ ')' :: rest)))
                               ident num,
                      current_token := tok }) =
      some (some { func_name := ⟨n⟩, arguments := ps.map (fun q => (⟨q.1⟩ : String)) },
            next_token { lex := atText rest (lastIdent ⟨n⟩ ps) num, current_token := 41 }) ∧
    (∀ (s : ParserState) (f : Nat), s.current_token ≠ IDENTIFIER_TOKEN →
      func_decl_parser_fn f s = some (none, s)) ∧
    (∀ (s : ParserState) (f : Nat), s.current_token = IDENTIFIER_TOKEN →
      (next_token s).current_token ≠ 40 → func_decl_parser_fn f s = some (none, next_token s)) ∧
    (∀ (s s2 : ParserState) (f : Nat) (names : List String),
      s.current_token = IDENTIFIER_TOKEN → (next_token s).current_token = 40 →
      func_decl_args f [] (next_token s) = some (names, s2) →
        s2.current_token ≠ IDENTIFIER_TOKEN ∧
        (s2.current_token ≠ 41 → func_decl_parser_fn f s = some (none, s2)) ∧
        (s2.current_token = 41 → func_decl_parser_fn f s =
          some (some { func_name := s.lex.identifier_string, arguments := names },
                next_token s2))) ∧
    func_decl_parser_fn 3 (next_token (initialState "f(a,b)".data)) =
      some (none, { lex := atText ['b', ')'] "a" 0, current_token := 44 }) := by
  refine ⟨?_, ?_, ?_, ?_, by decide⟩
  · have e0 := next_token_word wn n (w0 ++ '(' :: (w1 ++ paramsText ps ++ ')' :: rest)) ident num
      tok hwn hn (headNot_isalnum_punct w0 _ '(' hw0 (by decide))
    have e1 := next_token_punct w0 (w1 ++ paramsText ps ++ ')' :: rest) '(' ⟨n⟩ num
      IDENTIFIER_TOKEN hw0 (by simp)
    have e2 := func_decl_args_params ps hps w1 rest [] ⟨n⟩ num (('(' : Char).toNat : Int) fuel hw1
      hfuel
    rw [e0]
    unfold func_decl_parser_fn
    simp only [e1, e2, ne_eq, not_true_eq_false, if_false, List.nil_append]
    simp [atText]
  · intro s f h
    unfold func_decl_parser_fn
    simp [h]
  · intro s f h1 h2
    unfold func_decl_parser_fn
    simp [h1, h2]
  · intro s s2 f names h1 h2 h3
    refine ⟨func_decl_args_stops f [] _ _ h3, ?_, ?_⟩
    · intro h4
      unfold func_decl_parser_fn
      simp [h1, h2, h3, h4]
    · intro h4
      unfold func_decl_parser_fn
      simp [h1, h2, h3, h4]

/-- The claim C14 at `f(a b)`. -/
theorem func_decl_parser_shape_witness :
    func_decl_parser_fn 3 (next_token (initialState "f(a b)".data)) =
      some (some { func_name := "f", arguments := ["a", "b"] },
            { lex := atText [] "b" 0, current_token := EOF_TOKEN }) :=
  (func_decl_parser_shape ['f'] [' '] [] [] [] [(['a'], [' ']), (['b'], [])] "" 0 0 3
    (by decide) ⟨by decide, by decide, by decide, by decide, by decide, fun _ => rfl, trivial⟩
    (by decide) (by decide) (by decide) (by decide)).1

/-! ## Identifier expressions -/

theorem identifier_parser_fuel_le {n m : Nat} (h : n ≤ m) (s : ParserState)
    (r : Option BaseAST × ParserState) (hr : identifier_parser_fn n s = some r) :
    identifier_parser_fn m s = some r := by
  induction h with
  | refl => exact hr
  | step _ ih => exact (parser_fuel_succ _).2.1 _ _ ih

/-- C15, as the code behaves: an identifier not followed by `(` is a
`VariableAST`, `f()` and `f(1, 2+3)` are the calls of `f` with no argument
and with the arguments `1` and `2+3`, the current token then being the one
after the closing `)`.  But a parenthesised argument is returned by
`paran_parser` with its `)` still the current token, which
`identifier_parser` takes for the end of the argument list: `f((1), 2)` is
parsed as the call of `f` with the single argument `1`, and the current token
is then the comma (code `44`), with `2)` unread. -/
theorem paren_argument_ends_the_call (k : Nat) :
    identifier_parser_fn (1 + k) (next_token (initialState "x+1".data)) =
      some (some (.VariableAST "x"), { lex := atText ['1'] "x" 0, current_token := 43 }) ∧
    identifier_parser_fn (2 + k) (next_token (initialState "f()".data)) =
      some (some (.FunctionCallAST "f" []),
            { lex := atText [] "f" 0, current_token := EOF_TOKEN }) ∧
    identifier_parser_fn (8 + k) (next_token (initialState "f(1, 2+3)".data)) =
      some (some (.FunctionCallAST "f"
              [.NumericAST 1, .BinaryAST "43" (.NumericAST 2) (.NumericAST 3)]),
            { lex := atText [] "f" 3, current_token := EOF_TOKEN }) ∧
    identifier_parser_fn (8 + k) (next_token (initialState "f((1), 2)".data)) =
      some (some (.FunctionCallAST "f" [.NumericAST 1]),
            { lex := atText [' ', '2', ')'] "f" 1, current_token := 44 }) :=
  ⟨identifier_parser_fuel_le (Nat.le_add_right 1 k) _ _ rfl,
   identifier_parser_fuel_le (Nat.le_add_right 2 k) _ _ rfl,
   identifier_parser_fuel_le (Nat.le_add_right 8 k) _ _ rfl,
   identifier_parser_fuel_le (Nat.le_add_right 8 k) _ _ rfl⟩

/-! ## Operators of parsed trees -/

theorem opsSupportedList_append (l : List BaseAST) (a : BaseAST) (hl : opsSupportedList l)
    (ha : opsSupported a) : opsSupportedList (l ++ [a]) := by
  induction l with
  | nil => simpa [opsSupportedList] using ha
  | cons b l ih =>
    simp only [List.cons_append, opsSupportedList] at hl ⊢
    exact ⟨hl.1, ih hl.2⟩

theorem opsSupportedList_nil : opsSupportedList [] := by
  simp [opsSupportedList]

theorem opsSupported_BinaryAST (op : String) (l r : BaseAST)
    (hop : atoi op = 43 ∨ atoi op = 45 ∨ atoi op = 42 ∨ atoi op = 47)
    (hl : opsSupported l) (hr : opsSupported r) : opsSupported (.BinaryAST op l r) := by
  simp only [opsSupported]
  exact ⟨hop, hl, hr⟩

/-- A token with a precedence is the code of an operator, and the string
that `binary_op_parser` stores for it decodes to that code. -/
theorem atoi_to_string_of_precedence (s : ParserState) (h : 0 ≤ getBinOpPrecedence s) :
    atoi (to_string s.current_token) = 43 ∨ atoi (to_string s.current_token) = 45 ∨
      atoi (to_string s.current_token) = 42 ∨ atoi (to_string s.current_token) = 47 := by
  unfold getBinOpPrecedence operator_precedence at h
  by_cases h45 : s.current_token = 45
  · rw [h45]; right; left; decide
  by_cases h43 : s.current_token = 43
  · rw [h43]; left; decide
  by_cases h47 : s.current_token = 47
  · rw [h47]; right; right; right; decide
  by_cases h42 : s.current_token = 42
  · rw [h42]; right; right; left; decide
  simp only [h45, h43, h47, h42, if_false] at h
  split_ifs at h <;> omega

/-- Every tree returned by the parser has supported operators only. -/
theorem parser_opsSupported (n : Nat) :
    (∀ s t s1, base_parser_fn n s = some (some t, s1) → opsSupported t) ∧
    (∀ s t s1, identifier_parser_fn n s = some (some t, s1) → opsSupported t) ∧
    (∀ args s l s1, opsSupportedList args → identifier_args n args s = some (some l, s1) →
      opsSupportedList l) ∧
    (∀ s t s1, expression_parser_fn n s = some (some t, s1) → opsSupported t) ∧
    (∀ p LHS s t s1, 0 ≤ p → opsSupported LHS →
      binary_op_parser_fn n p LHS s = some (some t, s1) → opsSupported t) ∧
    (∀ s t s1, paran_parser_fn n s = some (some t, s1) → opsSupported t) := by
  induction n with
  | zero =>
    refine ⟨?_, ?_, ?_, ?_, ?_, ?_⟩ <;> intros <;>
      simp_all [base_parser_fn, identifier_parser_fn, identifier_args, expression_parser_fn,
        binary_op_parser_fn, paran_parser_fn]
  | succ n ih =>
    obtain ⟨ihb, ihi, iha, ihe, ihbin, ihp⟩ := ih
    refine ⟨?_, ?_, ?_, ?_, ?_, ?_⟩
    · intro s t s1 h
      rw [base_parser_fn] at h
      split_ifs at h with h1 h2 h3
      · exact ihi _ _ _ h
      · simp only [numeric_parser_fn, Option.some.injEq, Prod.mk.injEq] at h
        rw [← h.1]
        trivial
      · exact ihp _ _ _ h
      · simp at h
    · intro s t s1 h
      rw [identifier_parser_fn] at h
      simp only at h
      split_ifs at h with h1 h2
      · simp only [Option.some.injEq, Prod.mk.injEq] at h
        rw [← h.1]
        trivial
      · cases ha : identifier_args n [] (next_token (next_token s)) with
        | none => simp [ha] at h
        | some x =>
          obtain ⟨o, s2⟩ := x
          cases o with
          | none => simp [ha] at h
          | some l =>
            simp only [ha, Option.some.injEq, Prod.mk.injEq] at h
            rw [← h.1]
            exact iha _ _ _ _ opsSupportedList_nil ha
      · simp only [Option.some.injEq, Prod.mk.injEq] at h
        rw [← h.1]
        trivial
    · intro args s l s1 hargs h
      rw [identifier_args] at h
      cases he : expression_parser_fn n s with
      | none => simp [he] at h
      | some x =>
        obtain ⟨o, s2⟩ := x
        cases o with
        | none => simp [he] at h
        | some arg =>
          have harg := ihe _ _ _ he
          simp only [he] at h
          split_ifs at h with h1 h2
          · simp only [Option.some.injEq, Prod.mk.injEq] at h
            rw [← h.1]
            exact opsSupportedList_append _ _ hargs harg
          · simp at h
          · exact iha _ _ _ _ (opsSupportedList_append _ _ hargs harg) h
    · intro s t s1 h
      rw [expression_parser_fn] at h
      cases hb : base_parser_fn n s with
      | none => simp [hb] at h
      | some x =>
        obtain ⟨o, s2⟩ := x
        cases o with
        | none => simp [hb] at h
        | some LHS =>
          simp only [hb] at h
          exact ihbin _ _ _ _ _ (le_refl 0) (ihb _ _ _ hb) h
    · intro p LHS s t s1 hp hL h
      rw [binary_op_parser_fn] at h
      simp only at h
      split_ifs at h with h1
      · simp only [Option.some.injEq, Prod.mk.injEq] at h
        rw [← h.1]
        exact hL
      · have hprec : 0 ≤ getBinOpPrecedence s := le_trans hp (not_lt.mp h1)
        have hop := atoi_to_string_of_precedence s hprec
        cases hb : base_parser_fn n (next_token s) with
        | none => simp [hb] at h
        | some x =>
          obtain ⟨o, s2⟩ := x
          cases o with
          | none => simp [hb] at h
          | some rhs =>
            have hrhs := ihb _ _ _ hb
            simp only [hb] at h
            split_ifs at h with h2
            · cases hr : binary_op_parser_fn n (getBinOpPrecedence s + 1) rhs s2 with
              | none => simp [hr] at h
              | some y =>
                obtain ⟨o2, s3⟩ := y
                cases o2 with
                | none => simp [hr] at h
                | some rhs1 =>
                  have hrhs1 := ihbin _ _ _ _ _ (by omega) hrhs hr
                  simp only [hr] at h
                  exact ihbin _ _ _ _ _ hp (opsSupported_BinaryAST _ _ _ hop hL hrhs1) h
            · exact ihbin _ _ _ _ _ hp (opsSupported_BinaryAST _ _ _ hop hL hrhs) h
    · intro s t s1 h
      rw [paran_parser_fn] at h
      cases he : expression_parser_fn n (next_token s) with
      | none => simp [he] at h
      | some x =>
        obtain ⟨o, s2⟩ := x
        cases o with
        | none => simp [he] at h
        | some v =>
          simp only [he] at h
          split_ifs at h with h1
          · simp at h
          · simp only [Option.some.injEq, Prod.mk.injEq] at h
            rw [← h.1]
            exact ihe _ _ _ he

mutual

/-- Generation of a tree with supported operators never returns null through
the `default` branch of the `switch` in `BinaryAST::codeGen`. -/
theorem codeGen_ne_unsupportedOperator (m : Module) (nv : List (String × Value)) :
    ∀ (t : BaseAST), opsSupported t → t.codeGen m nv ≠ .null .unsupportedOperator
  | .NumericAST _, _ => by simp [BaseAST.codeGen]
  | .VariableAST v, _ => by
    rw [BaseAST.codeGen]
    split <;> simp
  | .BinaryAST op l r, h => by
    simp only [opsSupported] at h
    obtain ⟨hop, hl, hr⟩ := h
    have il := codeGen_ne_unsupportedOperator m nv l hl
    have ir := codeGen_ne_unsupportedOperator m nv r hr
    rw [BaseAST.codeGen]
    cases hcl : BaseAST.codeGen m nv l with
    | undefined => simp
    | null e =>
      have he : e ≠ .unsupportedOperator := fun hc => il (by rw [hcl, hc])
      cases hcr : BaseAST.codeGen m nv r <;> simp [he]
    | ok left =>
      cases hcr : BaseAST.codeGen m nv r with
      | undefined => simp
      | null e =>
        have he : e ≠ .unsupportedOperator := fun hc => ir (by rw [hcr, hc])
        simp [he]
      | ok right =>
        simp only
        rcases hop with h | h | h | h <;> simp [h]
  | .FunctionCallAST callee args, h => by
    have ia := codeGenArgs_ne_unsupportedOperator m nv args h
    rw [BaseAST.codeGen]
    cases hca : BaseAST.codeGenArgs m nv args with
    | undefined => simp
    | null e =>
      have he : e ≠ .unsupportedOperator := fun hc => ia (by rw [hca, hc])
      simp [he]
    | ok vs =>
      simp only
      split <;> simp

/-- The same for the arguments of a call. -/
theorem codeGenArgs_ne_unsupportedOperator (m : Module) (nv : List (String × Value)) :
    ∀ (l : List BaseAST), opsSupportedList l →
      BaseAST.codeGenArgs m nv l ≠ .null .unsupportedOperator
  | [], _ => by simp [BaseAST.codeGenArgs]
  | a :: as, h => by
    simp only [opsSupportedList] at h
    have i1 := codeGen_ne_unsupportedOperator m nv a h.1
    have i2 := codeGenArgs_ne_unsupportedOperator m nv as h.2
    rw [BaseAST.codeGenArgs]
    cases hca : BaseAST.codeGen m nv a with
    | undefined => simp
    | null e =>
      have he : e ≠ .unsupportedOperator := fun hc => i1 (by rw [hca, hc])
      simp [he]
    | ok v =>
      cases hcs : BaseAST.codeGenArgs m nv as with
      | undefined => simp
      | null e =>
        have he : e ≠ .unsupportedOperator := fun hc => i2 (by rw [hcs, hc])
        simp [he]
      | ok vs => simp

end

/-- A `BinaryAST` node with a supported operator returns null only when one
of its operands does, and for the reason of that operand. -/
theorem BinaryAST_null_of_operand (m : Module) (nv : List (String × Value)) (op : String)
    (l r : BaseAST) (e : GenError)
    (hop : atoi op = 43 ∨ atoi op = 45 ∨ atoi op = 42 ∨ atoi op = 47)
    (h : BaseAST.codeGen m nv (.BinaryAST op l r) = .null e) :
    l.codeGen m nv = .null e ∨ r.codeGen m nv = .null e := by
  rw [BaseAST.codeGen] at h
  cases hcl : BaseAST.codeGen m nv l with
  | undefined => simp [hcl] at h
  | null e1 =>
    rw [hcl] at h
    cases hcr : BaseAST.codeGen m nv r <;> simp [hcr] at h <;> simp [h]
  | ok left =>
    rw [hcl] at h
    cases hcr : BaseAST.codeGen m nv r with
    | undefined => simp [hcr] at h
    | null e1 => simp [hcr] at h; simp [h]
    | ok right =>
      simp only [hcr] at h
      rcases hop with h1 | h1 | h1 | h1 <;> simp [h1] at h

/-- C19: every tree that `expression_parser` returns stores in each
`BinaryAST` node an operator that `BinaryAST::codeGen` decodes to `+`, `-`,
`*` or `/`; so its generation never returns null for an unsupported
operator, and when the tree is a `BinaryAST` node that returns null, one of
its operands has returned null for the same reason. -/
theorem parsed_operators_are_supported (fuel : Nat) (s s1 : ParserState) (t : BaseAST)
    (h : expression_parser_fn fuel s = some (some t, s1)) :
    opsSupported t ∧
    (∀ m nv, t.codeGen m nv ≠ .null .unsupportedOperator) ∧
    (∀ m nv op l r e, t = .BinaryAST op l r → t.codeGen m nv = .null e →
      l.codeGen m nv = .null e ∨ r.codeGen m nv = .null e) := by
  have hops := (parser_opsSupported fuel).2.2.2.1 s t s1 h
  refine ⟨hops, fun m nv => codeGen_ne_unsupportedOperator m nv t hops, ?_⟩
  intro m nv op l r e ht hnull
  subst ht
  simp only [opsSupported] at hops
  exact BinaryAST_null_of_operand m nv op l r e hops.1 hnull

/-- The claim C19 at the tree of `x+2*3`, generated with `x` unbound: the
result is null because the operand `x` is. -/
theorem parsed_operators_are_supported_witness :
    BaseAST.codeGen [] [] (.VariableAST "x") = .null .unboundVariable ∨
    BaseAST.codeGen [] [] (.BinaryAST "42" (.NumericAST 2) (.NumericAST 3)) =
      .null .unboundVariable :=
  (parsed_operators_are_supported 4 (next_token (initialState "x+2*3".data))
    { lex := atText [] "x" 3, current_token := EOF_TOKEN }
    (.BinaryAST "43" (.VariableAST "x") (.BinaryAST "42" (.NumericAST 2) (.NumericAST 3)))
    rfl).2.2 [] [] _ _ _ _ rfl rfl

/-! ## Operator chains -/

theorem stepsSymbols_append (a b : List Step) :
    stepsSymbols (a ++ b) = stepsSymbols a ++ stepsSymbols b := by
  induction a with
  | nil => rfl
  | cons st a ih => simp [stepsSymbols, ih]

theorem inorder_leaf (x : Operand) : inorder x.leaf = [Symbol.leaf x.leaf] := by
  cases x <;> rfl

theorem headNot_stepsText (p : Int → Bool) (hs : ∀ c, isspace c = true → p c = false)
    (hop : ∀ op, isOperator op → p (op.toNat : Int) = false) (wend : List Char)
    (hwend : allSpace wend) (steps : List Step) (hok : ∀ st ∈ steps, st.ok) :
    headNot p (stepsText wend steps) := by
  cases steps with
  | nil =>
    have := headNot_space_append p wend [] hwend hs (headNot_nil _)
    simpa [stepsText] using this
  | cons st rest =>
    obtain ⟨h1, h2, _, _⟩ := hok st (by simp)
    exact headNot_space_append p st.wop _ h1 hs (headNot_cons _ _ _ (hop st.op h2))

theorem isOperator_not_isalnum (op : Char) (h : isOperator op) :
    isalnum (op.toNat : Int) = false := by
  rcases h with h | h | h | h <;> subst h <;> decide

/-- The state in which the loop of `binary_op_parser` meets a chain: the
current token is the first operator, or `EOF_TOKEN` when the chain is empty. -/
theorem next_token_stepsText (wend : List Char) (hwend : allSpace wend) (steps : List Step)
    (hok : ∀ st ∈ steps, st.ok) (ident : String) (num tok : Int) :
    next_token { lex := atText (stepsText wend steps) ident num, current_token := tok } =
      match steps with
      | [] => { lex := atText [] ident num, current_token := EOF_TOKEN }
      | st :: rest =>
        { lex := atText (st.wx ++ st.x.text ++ stepsText wend rest) ident num,
          current_token := (st.op.toNat : Int) } := by
  cases steps with
  | nil => exact next_token_eof wend ident num tok hwend
  | cons st rest =>
    obtain ⟨h1, h2, _, _⟩ := hok st (by simp)
    exact next_token_operator st.wop _ st.op ident num tok h1 h2

/-- On an operand followed by a chain, `base_parser` returns the operand's
tree and leaves the state in which the loop meets the chain. -/
theorem base_parser_operand (x : Operand) (hx : x.ok) (w wend : List Char) (hw : allSpace w)
    (hwend : allSpace wend) (steps : List Step) (hok : ∀ st ∈ steps, st.ok)
    (ident : String) (num tok : Int) (k : Nat) :
    ∃ ident1 num1 tok1,
      base_parser_fn (k + 2)
          (next_token { lex := atText (w ++ x.text ++ stepsText wend steps) ident num,
                        current_token := tok }) =
        some (some x.leaf,
              next_token { lex := atText (stepsText wend steps) ident1 num1,
                           current_token := tok1 }) := by
  cases x with
  | literal d =>
    have e := next_token_number w d (stepsText wend steps) ident num tok hw hx
      (headNot_stepsText isdigit isspace_not_isdigit
        (fun op h => (isOperator_classes op h).2.2.1) wend hwend steps hok)
    refine ⟨ident, strtod_int ⟨d⟩, NUMERIC_TOKEN, ?_⟩
    simp only [Operand.text, Operand.leaf, e, base_parser_fn, numeric_parser_fn]
    simp [NUMERIC_TOKEN, IDENTIFIER_TOKEN, atText]
  | identifier x =>
    have e := next_token_word w x (stepsText wend steps) ident num tok hw hx
      (headNot_stepsText isalnum isspace_not_isalnum isOperator_not_isalnum wend hwend steps hok)
    have hnext :
        (next_token { lex := atText (stepsText wend steps) ⟨x⟩ num,
                      current_token := IDENTIFIER_TOKEN }).current_token ≠ 40 := by
      rw [next_token_stepsText wend hwend steps hok]
      cases steps with
      | nil => simp [EOF_TOKEN]
      | cons st rest =>
        obtain ⟨_, h2, _, _⟩ := hok st (by simp)
        rcases h2 with h | h | h | h <;> simp [h]
    refine ⟨⟨x⟩, num, IDENTIFIER_TOKEN, ?_⟩
    simp only [Operand.text, Operand.leaf, e, base_parser_fn, identifier_parser_fn, if_true, hnext,
      ne_eq, not_false_eq_true]
    simp [atText]

/-- Precedence climbing over a chain: from the state in which the loop meets
the chain `steps`, `binary_op_parser` consumes a first part `done` of it and
returns a tree whose in-order traversal is that of `LHS` followed by `done`;
what is left begins with an operator of precedence below `old`, or is empty. -/
theorem binary_op_parser_climb (wend : List Char) (hwend : allSpace wend) :
    ∀ (n : Nat) (steps : List Step), steps.length ≤ n → (∀ st ∈ steps, st.ok) →
      ∀ (old : Int) (LHS : BaseAST) (ident : String) (num tok : Int) (fuel : Nat),
        0 ≤ old → steps.length + 2 ≤ fuel →
        ∃ (done rest : List Step) (T : BaseAST) (ident1 : String) (num1 tok1 : Int),
          steps = done ++ rest ∧
          binary_op_parser_fn fuel old LHS
              (next_token { lex := atText (stepsText wend steps) ident num,
                            current_token := tok }) =
            some (some T, next_token { lex := atText (stepsText wend rest) ident1 num1,
                                       current_token := tok1 }) ∧
          inorder T = inorder LHS ++ stepsSymbols done ∧
          (∀ st ∈ rest.head?, operator_precedence (st.op.toNat : Int) < old) := by
  intro n
  induction n with
  | zero =>
    intro steps hlen hok old LHS ident num tok fuel hold hfuel
    have hnil : steps = [] := List.length_eq_zero.mp (Nat.le_zero.mp hlen)
    subst hnil
    obtain ⟨k, rfl⟩ : ∃ k, fuel = k + 1 := ⟨fuel - 1, by simp at hfuel; omega⟩
    refine ⟨[], [], LHS, ident, num, tok, rfl, ?_, by simp [stepsSymbols], by simp⟩
    have hs := next_token_stepsText wend hwend [] hok ident num tok
    simp only at hs
    rw [binary_op_parser_fn]
    simp only [hs, getBinOpPrecedence_eof]
    rw [if_pos (by omega)]
  | succ n ih =>
    intro steps hlen hok old LHS ident num tok fuel hold hfuel
    cases steps with
    | nil =>
      obtain ⟨k, rfl⟩ : ∃ k, fuel = k + 1 := ⟨fuel - 1, by simp at hfuel; omega⟩
      refine ⟨[], [], LHS, ident, num, tok, rfl, ?_, by simp [stepsSymbols], by simp⟩
      have hs := next_token_stepsText wend hwend [] hok ident num tok
      simp only at hs
      rw [binary_op_parser_fn]
      simp only [hs, getBinOpPrecedence_eof]
      rw [if_pos (by omega)]
    | cons st rest1 =>
      have hst : st.ok := hok st (by simp)
      have hok1 : ∀ x ∈ rest1, x.ok := fun x hx => hok x (by simp [hx])
      have hlen1 : rest1.length ≤ n := by simp at hlen; omega
      obtain ⟨hwop, hop, hwx, hx⟩ := hst
      have hs := next_token_stepsText wend hwend (st :: rest1) hok ident num tok
      simp only at hs
      obtain ⟨hp, hpos⟩ := getBinOpPrecedence_operator
        (atText (st.wx ++ st.x.text ++ stepsText wend rest1) ident num) st.op hop
      by_cases hlt : operator_precedence (st.op.toNat : Int) < old
      · obtain ⟨k, rfl⟩ : ∃ k, fuel = k + 1 := ⟨fuel - 1, by simp at hfuel; omega⟩
        refine ⟨[], st :: rest1, LHS, ident, num, tok, rfl, ?_, by simp [stepsSymbols],
          by simpa using hlt⟩
        rw [binary_op_parser_fn]
        simp only [hs, hp]
        rw [if_pos hlt]
      · obtain ⟨k, rfl⟩ : ∃ k, fuel = k + 3 := ⟨fuel - 3, by simp at hfuel; omega⟩
        obtain ⟨i1, n1, t1, hbase⟩ := base_parser_operand st.x hx st.wx wend hwx hwend rest1 hok1
          ident num (st.op.toNat : Int) k
        by_cases hnext : operator_precedence (st.op.toNat : Int) <
            getBinOpPrecedence (next_token { lex := atText (stepsText wend rest1) i1 n1,
                                              current_token := t1 })
        · obtain ⟨done1, rest2, T1, i2, n2, t2, hsplit1, hrun1, hin1, hhead1⟩ :=
            ih rest1 hlen1 hok1 (operator_precedence (st.op.toNat : Int) + 1) st.x.leaf i1 n1 t1
              (k + 2) (by omega) (by simp at hfuel ⊢; omega)
          have hlen2 : rest2.length ≤ n := by
            have := congrArg List.length hsplit1
            simp at this; omega
          have hok2 : ∀ x ∈ rest2, x.ok := fun x hx2 => hok1 x (by rw [hsplit1]; simp [hx2])
          obtain ⟨done2, rest3, T2, i3, n3, t3, hsplit2, hrun2, hin2, hhead2⟩ :=
            ih rest2 hlen2 hok2 old
              (.BinaryAST (to_string (st.op.toNat : Int)) LHS T1) i2 n2 t2 (k + 2) hold
              (by
                have := congrArg List.length hsplit1
                simp at this hfuel ⊢; omega)
          refine ⟨st :: (done1 ++ done2), rest3, T2, i3, n3, t3, ?_, ?_, ?_, hhead2⟩
          · rw [hsplit1, hsplit2]; simp
          · rw [binary_op_parser_fn]
            simp only [hs, hp, if_neg hlt, hbase, if_pos hnext, hrun1, hrun2]
          · rw [hin2]
            simp [inorder, hin1, inorder_leaf, stepsSymbols, stepsSymbols_append]
        · obtain ⟨done1, rest2, T1, i2, n2, t2, hsplit1, hrun1, hin1, hhead1⟩ :=
            ih rest1 hlen1 hok1 old
              (.BinaryAST (to_string (st.op.toNat : Int)) LHS st.x.leaf) i1 n1 t1
              (k + 2) hold (by simp at hfuel ⊢; omega)
          refine ⟨st :: done1, rest2, T1, i2, n2, t2, ?_, ?_, ?_, hhead1⟩
          · rw [hsplit1]; simp
          · rw [binary_op_parser_fn]
            simp only [hs, hp, if_neg hlt, hbase, if_neg hnext, hrun1]
          · rw [hin1]
            simp [inorder, inorder_leaf, stepsSymbols]

/-- C20: on `x0 op1 x1 ... opn xn`, the operands integer literals or
identifiers, the operators among `+ - * /`, any white space around the
tokens, `expression_parser` returns a tree given fuel `n + 4` or more, ends
at `EOF_TOKEN` with nothing unread, and the in-order traversal of the tree
is `x0 op1 x1 ... opn xn`. -/
theorem expression_preserves_order (x0 : Operand) (steps : List Step) (w0 wend : List Char)
    (fuel : Nat) (hx0 : x0.ok) (hsteps : ∀ st ∈ steps, st.ok) (hw0 : allSpace w0)
    (hwend : allSpace wend) (hfuel : steps.length + 4 ≤ fuel) :
    ∃ (T : BaseAST) (ident : String) (num : Int),
      expression_parser_fn fuel
          (next_token (initialState (w0 ++ x0.text ++ stepsText wend steps))) =
        some (some T, { lex := atText [] ident num, current_token := EOF_TOKEN }) ∧
      inorder T = Symbol.leaf x0.leaf :: stepsSymbols steps := by
  obtain ⟨k, rfl⟩ : ∃ k, fuel = (k + 2) + 1 := ⟨fuel - 3, by omega⟩
  obtain ⟨i1, n1, t1, hbase⟩ := base_parser_operand x0 hx0 (' ' :: w0) wend
    (allSpace_cons_space w0 hw0) hwend steps hsteps "" 0 0 k
  obtain ⟨done, rest, T, i2, n2, t2, hsplit, hrun, hin, hhead⟩ :=
    binary_op_parser_climb wend hwend steps.length steps (le_refl _) hsteps 0 x0.leaf i1 n1 t1
      (k + 2) (le_refl 0) (by omega)
  have hrest : rest = [] := by
    cases rest with
    | nil => rfl
    | cons st r =>
      have hlt := hhead st (by simp)
      have hst : st.ok := hsteps st (by rw [hsplit]; simp)
      have := (getBinOpPrecedence_operator (atText [] "" 0) st.op hst.2.1).2
      omega
  subst hrest
  rw [List.append_nil] at hsplit
  subst hsplit
  have hend := next_token_stepsText wend hwend [] (by simp) i2 n2 t2
  simp only at hend
  refine ⟨T, i2, n2, ?_, ?_⟩
  · rw [expression_parser_fn, initialState_eq]
    have htext : ' ' :: (w0 ++ x0.text ++ stepsText wend steps) =
        (' ' :: w0) ++ x0.text ++ stepsText wend steps := by simp
    rw [htext, hbase]
    simp only [hrun, hend]
  · rw [hin, inorder_leaf]
    rfl

/-- The claim C20 at `a + 2*b - 7`: the in-order traversal of the tree is
`a`, `+` (code 43), `2`, `*` (code 42), `b`, `-` (code 45), `7`. -/
theorem expression_preserves_order_witness :
    ∃ (T : BaseAST) (ident : String) (num : Int),
      expression_parser_fn 7 (next_token (initialState "a + 2*b - 7".data)) =
        some (some T, { lex := atText [] ident num, current_token := EOF_TOKEN }) ∧
      inorder T =
        [.leaf (.VariableAST "a"), .op "43", .leaf (.NumericAST 2), .op "42",
         .leaf (.VariableAST "b"), .op "45", .leaf (.NumericAST 7)] :=
  expression_preserves_order (.identifier ['a'])
    [{ wop := [' '], op := '+', wx := [' '], x := .literal ['2'] },
     { wop := [], op := '*', wx := [], x := .identifier ['b'] },
     { wop := [' '], op := '-', wx := [' '], x := .literal ['7'] }] [] [] 7
    (by decide)
    (by decide)
    (by decide) (by decide) (by decide)

/-! ## The module between units -/

theorem ModuleInv_nil : ModuleInv [] := by
  simp [ModuleInv]

theorem ModuleInv_append (m : Module) (fn : Function) (hm : ModuleInv m) (hb : fn.hasBody)
    (hfresh : getFunction m fn.name = none) : ModuleInv (m ++ [fn]) := by
  obtain ⟨h1, h2⟩ := hm
  refine ⟨?_, ?_⟩
  · intro g hg
    rcases List.mem_append.mp hg with h | h
    · exact h1 g h
    · simp only [List.mem_singleton] at h
      rw [h]; exact hb
  · rw [List.map_append, List.filter_append]
    by_cases hn : fn.name = ""
    · simpa [hn] using h2
    · rw [getFunction_eq_findFunction _ _ hn] at hfresh
      have hnot := (findFunction_eq_none_iff _ _).mp hfresh
      simp only [List.map_cons, List.map_nil, ne_eq, hn, not_false_eq_true, decide_True,
        List.filter_cons_of_pos, List.filter_nil]
      rw [List.nodup_append]
      refine ⟨h2, List.nodup_singleton _, ?_⟩
      intro a ha hb2
      simp only [List.mem_singleton] at hb2
      subst hb2
      simp only [List.mem_filter, List.mem_map] at ha
      obtain ⟨⟨g, hg, hgn⟩, _⟩ := ha
      exact hnot g hg hgn

/-- Under the invariant a definition of a name the module has is a
redefinition, and the module stays as it is. -/
theorem ModuleInv_redefinition (m : Module) (nv : List (String × Value)) (fd : FunctionDefnAST)
    (hm : ModuleInv m) (hname : fd.func_decl.func_name ≠ "")
    (hin : ∃ fn ∈ m, fn.name = fd.func_decl.func_name) :
    fd.codeGen { module_Ob := m, named_Values := nv } =
      (.null .redefinition, { module_Ob := m, named_Values := [] }) := by
  obtain ⟨i, fn, hfind, hget, _⟩ := (findFunction_isSome_iff _ _).mp hin
  have hgetF : getFunction m fd.func_decl.func_name = some (i, fn) := by
    rw [getFunction_eq_findFunction _ _ hname]; exact hfind
  obtain ⟨v, hv⟩ := hm.1 fn (List.get?_mem hget)
  rw [FunctionDefnAST_codeGen_existing fd _ i fn hgetF]
  simp [Function.empty, hv]

/-- Generation of a definition that returns (a function or null) keeps the
invariant. -/
theorem FunctionDefnAST_codeGen_ModuleInv (fd : FunctionDefnAST) (s s1 : CodeGenState)
    (r : GenResult Nat) (hm : ModuleInv s.module_Ob) (hgen : fd.codeGen s = (r, s1))
    (hr : r ≠ .undefined) : ModuleInv s1.module_Ob := by
  cases hget : getFunction s.module_Ob fd.func_decl.func_name with
  | none =>
    rw [FunctionDefnAST_codeGen_fresh fd s hget] at hgen
    split at hgen
    · simp only [Prod.mk.injEq] at hgen
      rw [← hgen.2]
      exact ModuleInv_append _ _ hm ⟨_, rfl⟩ hget
    · simp only [Prod.mk.injEq] at hgen
      rw [← hgen.2]
      exact hm
    · simp only [Prod.mk.injEq] at hgen
      exact absurd hgen.1.symm hr
  | some x =>
    obtain ⟨i, fn⟩ := x
    have hname : fd.func_decl.func_name ≠ "" := by
      intro h
      simp [getFunction, h] at hget
    have hfind : findFunction fd.func_decl.func_name s.module_Ob = some (i, fn) := by
      rw [← getFunction_eq_findFunction _ _ hname]; exact hget
    have hin : ∃ g ∈ s.module_Ob, g.name = fd.func_decl.func_name :=
      ⟨fn, List.get?_mem (findFunction_some _ _ _ _ hfind).1, (findFunction_some _ _ _ _ hfind).2⟩
    have := ModuleInv_redefinition s.module_Ob s.named_Values fd hm hname hin
    rw [hgen] at this
    simp only [Prod.mk.injEq] at this
    rw [this.2]
    exact hm

theorem handleUnit_ModuleInv (parsed : Option FunctionDefnAST × ParserState) (s s1 : ProgramState)
    (hm : ModuleInv s.gen.module_Ob) (h : handleUnit parsed s = (.ok (), s1)) :
    ModuleInv s1.gen.module_Ob := by
  obtain ⟨o, p⟩ := parsed
  cases o with
  | none =>
    simp only [handleUnit, Prod.mk.injEq] at h
    rw [← h.2]
    exact hm
  | some f =>
    simp only [handleUnit] at h
    cases hgen : f.codeGen s.gen with
    | mk r g =>
      rw [hgen] at h
      cases r with
      | ok v =>
        simp only [Prod.mk.injEq] at h
        rw [← h.2]
        exact FunctionDefnAST_codeGen_ModuleInv f s.gen g _ hm hgen (by simp)
      | null e =>
        simp only [Prod.mk.injEq] at h
        rw [← h.2]
        exact FunctionDefnAST_codeGen_ModuleInv f s.gen g _ hm hgen (by simp)
      | undefined => simp at h

theorem driver_ModuleInv : ∀ (fuel : Nat) (s s1 : ProgramState), ModuleInv s.gen.module_Ob →
    driver fuel s = some (.returned s1) → ModuleInv s1.gen.module_Ob := by
  intro fuel
  induction fuel with
  | zero => intro s s1 _ h; simp [driver] at h
  | succ n ih =>
    intro s s1 hm h
    rw [driver] at h
    split_ifs at h with h1 h2 h3
    · simp only [Option.some.injEq, Outcome.returned.injEq] at h
      rw [← h]; exact hm
    · exact ih { s with parser := next_token s.parser } s1 hm h
    · simp only [handleDefn] at h
      cases hp : func_defn_parser_fn n s.parser with
      | none => simp [hp] at h
      | some x =>
        rw [hp] at h
        simp only [Option.map_some'] at h
        cases hu : handleUnit x s with
        | mk g s2 =>
          rw [hu] at h
          cases g with
          | ok v => exact ih _ _ (handleUnit_ModuleInv x s s2 hm hu) h
          | null e => simp at h
          | undefined => simp at h
    · simp only [handleTopExpression] at h
      cases hp : top_level_parser_fn n s.parser with
      | none => simp [hp] at h
      | some x =>
        rw [hp] at h
        simp only [Option.map_some'] at h
        cases hu : handleUnit x s with
        | mk g s2 =>
          rw [hu] at h
          cases g with
          | ok v => exact ih _ _ (handleUnit_ModuleInv x s s2 hm hu) h
          | null e => simp at h
          | undefined => simp at h

/-- C18: when a run of the driver from the empty module returns, every
function of the module has a body, its one entry block ending in a return,
and no two functions share a non-empty name; every unit that the driver
handles keeps this; and in such a module a definition whose non-empty name
is the name of a function always returns null, as a redefinition, the module
unchanged. -/
theorem driver_module_invariant (input : List Char) (fuel : Nat) (s : ProgramState)
    (h : main fuel input = some (.returned s)) :
    ModuleInv s.gen.module_Ob ∧
    (∀ parsed s0 s1, ModuleInv s0.gen.module_Ob → handleUnit parsed s0 = (.ok (), s1) →
      ModuleInv s1.gen.module_Ob) ∧
    (∀ (fd : FunctionDefnAST) (nv : List (String × Value)), fd.func_decl.func_name ≠ "" →
      (∃ fn ∈ s.gen.module_Ob, fn.name = fd.func_decl.func_name) →
      fd.codeGen { module_Ob := s.gen.module_Ob, named_Values := nv } =
        (.null .redefinition, { module_Ob := s.gen.module_Ob, named_Values := [] })) := by
  have hinv : ModuleInv s.gen.module_Ob := driver_ModuleInv fuel _ s ModuleInv_nil h
  exact ⟨hinv, handleUnit_ModuleInv, fun fd nv hname hin =>
    ModuleInv_redefinition _ nv fd hinv hname hin⟩

/-- The claim C18 for the run on `def f(x) x  def g(y) z  f(2)`: the module
holds `f` and the unnamed function of `f(2)`, both with a body. -/
theorem driver_module_invariant_witness :
    ModuleInv
      [{ name := "f", arg_size := 1,
         blocks := [{ label := "enrty", ret := some (.Argument 0) }] },
       { name := "", arg_size := 0,
         blocks := [{ label := "enrty", ret := some (.Call "f" [.ConstantInt 2]) }] }] :=
  (driver_module_invariant "def f(x) x  def g(y) z  f(2)".data 12
    { parser := { lex := atText [] "f" 2, current_token := EOF_TOKEN },
      gen :=
        { module_Ob :=
            [{ name := "f", arg_size := 1,
               blocks := [{ label := "enrty", ret := some (.Argument 0) }] },
             { name := "", arg_size := 0,
               blocks := [{ label := "enrty", ret := some (.Call "f" [.ConstantInt 2]) }] }],
          named_Values := [] },
      units :=
        [.generated { func_decl := { func_name := "f", arguments := ["x"] },
                      body := .VariableAST "x" },
         .notGenerated { func_decl := { func_name := "g", arguments := ["y"] },
                         body := .VariableAST "z" } .unboundVariable,
         .generated { func_decl := { func_name := "", arguments := [] },
                      body := .FunctionCallAST "f" [.NumericAST 2] }] }
    rfl).1

/-! ## Consumption of the input -/

theorem natCast_ne_EOF (c : Char) : ((c.toNat : Int) = EOF) = False := by
  simp only [EOF, eq_iff_iff, iff_false]
  omega

theorem pending_fgetc (src : List Char) :
    pending (fgetc src).1 (fgetc src).2 = src.length := by
  cases src with
  | nil => simp [fgetc, pending]
  | cons c cs => simp [fgetc, pending, natCast_ne_EOF]

theorem pending_skipSpaces : ∀ (src : List Char) (lc : Int),
    pending (skipSpaces src lc).1 (skipSpaces src lc).2 ≤ pending lc src := by
  intro src
  induction src with
  | nil =>
    intro lc
    simp only [skipSpaces]
    split_ifs with h
    · simp [pending]
    · exact le_refl _
  | cons c cs ih =>
    intro lc
    simp only [skipSpaces]
    split_ifs with h
    · have hlc : lc ≠ EOF := by
        intro hc; rw [hc, isspace_EOF] at h; exact absurd h (by decide)
      have := ih (c.toNat : Int)
      simp only [pending, natCast_ne_EOF, if_false, hlc, List.length_cons] at this ⊢
      omega
    · exact le_refl _

theorem pending_readIdentifier : ∀ (src : List Char) (ident : String),
    pending (readIdentifier src ident).2.1 (readIdentifier src ident).2.2 ≤ src.length := by
  intro src
  induction src with
  | nil => intro ident; simp [readIdentifier, pending]
  | cons c cs ih =>
    intro ident
    simp only [readIdentifier]
    split_ifs with h
    · have := ih (ident.push (toChar (c.toNat : Int)))
      simp only [List.length_cons]
      omega
    · simp [pending, natCast_ne_EOF]

theorem pending_readNumber : ∀ (src : List Char) (lc : Int) (numStr : String),
    pending (readNumber src lc numStr).2.1 (readNumber src lc numStr).2.2 ≤ src.length := by
  intro src
  induction src with
  | nil => intro lc numStr; simp [readNumber, pending]
  | cons c cs ih =>
    intro lc numStr
    simp only [readNumber]
    split_ifs with h
    · have := ih (c.toNat : Int) (numStr.push (toChar lc))
      simp only [List.length_cons]
      omega
    · simp [pending, natCast_ne_EOF]

theorem pending_skipComment : ∀ (src : List Char),
    pending (skipComment src).1 (skipComment src).2 ≤ src.length := by
  intro src
  induction src with
  | nil => simp [skipComment, pending]
  | cons c cs ih =>
    simp only [skipComment]
    split_ifs with h
    · simp only [List.length_cons]
      omega
    · simp [pending, natCast_ne_EOF]

/-- A call of `get_token` never gives characters back, and consumes at least
one unless `lastChar` is `EOF`. -/
theorem unread_get_token_fuel : ∀ (n : Nat) (s : LexState),
    unread (get_token_fuel n s).2 ≤ unread s ∧
      (1 ≤ n → s.lastChar ≠ EOF → unread (get_token_fuel n s).2 < unread s) := by
  intro n
  induction n with
  | zero => intro s; exact ⟨le_refl _, fun h => absurd h (by decide)⟩
  | succ n ih =>
    intro s
    have hk1 := pending_skipSpaces s.source s.lastChar
    have hk2 := skipSpaces_length s.source s.lastChar
    have key : (skipSpaces s.source s.lastChar).1 ≠ EOF →
        unread (get_token_fuel (n + 1) s).2 ≤ (skipSpaces s.source s.lastChar).2.length →
        unread (get_token_fuel (n + 1) s).2 ≤ unread s ∧
          (1 ≤ n + 1 → s.lastChar ≠ EOF → unread (get_token_fuel (n + 1) s).2 < unread s) := by
      intro hlc hle
      have : pending (skipSpaces s.source s.lastChar).1 (skipSpaces s.source s.lastChar).2 =
          (skipSpaces s.source s.lastChar).2.length + 1 := by simp [pending, hlc]
      have hlt : unread (get_token_fuel (n + 1) s).2 < unread s := by
        unfold unread at hle ⊢
        omega
      exact ⟨le_of_lt hlt, fun _ _ => hlt⟩
    by_cases ha : isalpha (skipSpaces s.source s.lastChar).1 = true
    · apply key
      · intro hc; rw [hc, isalpha_EOF] at ha; exact absurd ha (by decide)
      · have := pending_readIdentifier (skipSpaces s.source s.lastChar).2
          (String.singleton (toChar (skipSpaces s.source s.lastChar).1))
        simp only [get_token_fuel, ha, if_true]
        split_ifs <;> exact this
    by_cases hd : isdigit (skipSpaces s.source s.lastChar).1 = true
    · apply key
      · intro hc; rw [hc, isdigit_EOF] at hd; exact absurd hd (by decide)
      · have := pending_readNumber (skipSpaces s.source s.lastChar).2
          (skipSpaces s.source s.lastChar).1 ""
        simp only [get_token_fuel, ha, hd, if_true, if_false]
        exact this
    by_cases h35 : (skipSpaces s.source s.lastChar).1 = 35
    · apply key
      · rw [h35]; decide
      · have hc := pending_skipComment (skipSpaces s.source s.lastChar).2
        simp only [get_token_fuel, h35, show isalpha (35 : Int) = false from by decide,
          show isdigit (35 : Int) = false from by decide, Bool.false_eq_true, if_false,
          beq_self_eq_true, if_true, Bool.true_and]
        split_ifs with h1 h2
        · exact le_trans (ih _).1 hc
        · exact hc
        · simp only [bne_iff_ne, ne_eq, not_not, beq_iff_eq] at h1 h2
          exact absurd h1 h2
    by_cases hE : (skipSpaces s.source s.lastChar).1 = EOF
    · have hres : (get_token_fuel (n + 1) s).2 =
          { s with source := (skipSpaces s.source s.lastChar).2, lastChar := EOF } := by
        simp only [get_token_fuel, hE, isalpha_EOF, isdigit_EOF, Bool.false_eq_true, if_false,
          show (EOF == 35) = false from by decide, Bool.false_and, beq_self_eq_true, if_true]
      rw [hres]
      unfold unread
      simp only [pending, if_true, Nat.add_zero]
      refine ⟨by omega, fun _ hne => ?_⟩
      simp only [hne, if_false]
      omega
    · apply key hE
      have h35b : ((skipSpaces s.source s.lastChar).1 == 35) = false := by simpa using h35
      have hEb : ((skipSpaces s.source s.lastChar).1 == EOF) = false := by simpa using hE
      have := pending_fgetc (skipSpaces s.source s.lastChar).2
      simp only [get_token_fuel, ha, hd, if_false, h35b, Bool.false_and, Bool.false_eq_true,
        hEb]
      exact le_of_eq this

theorem unread_get_token (s : LexState) :
    unread (get_token s).2 ≤ unread s ∧
      (s.lastChar ≠ EOF → unread (get_token s).2 < unread s) :=
  ⟨(unread_get_token_fuel _ s).1, (unread_get_token_fuel _ s).2 (Nat.le_add_left 1 _)⟩

/-- Every call of `next_token` advances the parser. -/
theorem Advanced_next_token (s : ParserState) : Advanced s (next_token s) := by
  by_cases h : s.lex.lastChar = EOF
  · have := get_token_at_EOF s.lex h
    unfold Advanced next_token
    rw [this]
    exact ⟨le_refl _, Or.inr rfl⟩
  · have := unread_get_token s.lex
    simp only [Advanced, next_token]
    exact ⟨this.1, Or.inl (this.2 h)⟩

theorem Advanced_trans {s s1 s2 : ParserState} (h1 : Advanced s s1) (h2 : Advanced s1 s2) :
    Advanced s s2 := by
  obtain ⟨a1, a2⟩ := h1
  obtain ⟨b1, b2⟩ := h2
  refine ⟨le_trans b1 a1, ?_⟩
  rcases b2 with b | b
  · exact Or.inl (lt_of_lt_of_le b a1)
  · exact Or.inr b

theorem Advanced_NotBehind {s s1 s2 : ParserState} (h1 : Advanced s s1) (h2 : NotBehind s1 s2) :
    Advanced s s2 := by
  rcases h2 with h | h
  · rw [h]; exact h1
  · exact Advanced_trans h1 h

theorem NotBehind_Advanced {s s1 s2 : ParserState} (h1 : NotBehind s s1) (h2 : Advanced s1 s2) :
    Advanced s s2 := by
  rcases h1 with h | h
  · rw [h] at h2; exact h2
  · exact Advanced_trans h h2

theorem NotBehind_refl (s : ParserState) : NotBehind s s := Or.inl rfl

theorem NotBehind_trans {s s1 s2 : ParserState} (h1 : NotBehind s s1) (h2 : NotBehind s1 s2) :
    NotBehind s s2 := by
  rcases h1 with h | h
  · rw [h] at h2; exact h2
  · exact Or.inr (Advanced_NotBehind h h2)

theorem NotBehind_unread {s s1 : ParserState} (h : NotBehind s s1) :
    unread s1.lex ≤ unread s.lex := by
  rcases h with h | h
  · rw [h]
  · exact h.1

theorem Advanced_lt_of_token {s s1 : ParserState} (h : Advanced s s1)
    (ht : s1.current_token ≠ EOF_TOKEN) : unread s1.lex < unread s.lex := by
  rcases h.2 with h2 | h2
  · exact h2
  · exact absurd h2 ht

/-! ## Termination of the parser -/

theorem base_parser_at_EOF_TOKEN (k : Nat) (s : ParserState) (h : s.current_token = EOF_TOKEN) :
    base_parser_fn (k + 1) s = some (none, s) := by
  rw [base_parser_fn, h]
  simp [EOF_TOKEN, IDENTIFIER_TOKEN, NUMERIC_TOKEN]

theorem expression_parser_at_EOF_TOKEN (k : Nat) (s : ParserState)
    (h : s.current_token = EOF_TOKEN) : expression_parser_fn (k + 2) s = some (none, s) := by
  rw [expression_parser_fn, base_parser_at_EOF_TOKEN k s h]

theorem BinaryOpReturns_step (s : ParserState)
    (hB : ∀ s1 : ParserState, unread s1.lex < unread s.lex → BaseReturns s1)
    (hBin : ∀ s1 : ParserState, unread s1.lex < unread s.lex → BinaryOpReturns s1) :
    BinaryOpReturns s := by
  intro p LHS fuel hf
  obtain ⟨f, rfl⟩ : ∃ f, fuel = f + 1 := ⟨fuel - 1, by omega⟩
  rw [binary_op_parser_fn]
  by_cases hlt : getBinOpPrecedence s < p
  · exact ⟨(some LHS, s), by simp [hlt], NotBehind_refl s⟩
  · have hadv := Advanced_next_token s
    simp only [if_neg hlt]
    rcases hadv.2 with hdec | heof
    · obtain ⟨r1, hr1, hnb1, _⟩ := hB _ hdec f (by omega)
      obtain ⟨o, s2⟩ := r1
      have hadv2 : Advanced s s2 := Advanced_NotBehind hadv hnb1
      have hlt2 : unread s2.lex < unread s.lex :=
        lt_of_le_of_lt (NotBehind_unread hnb1) hdec
      rw [hr1]
      cases o with
      | none => exact ⟨(none, s2), rfl, Or.inr hadv2⟩
      | some rhs =>
        simp only
        by_cases hnext : getBinOpPrecedence s < getBinOpPrecedence s2
        · simp only [if_pos hnext]
          obtain ⟨r2, hr2, hnb2⟩ := hBin _ hlt2 (getBinOpPrecedence s + 1) rhs f (by omega)
          obtain ⟨o2, s3⟩ := r2
          have hadv3 : Advanced s s3 := Advanced_NotBehind hadv2 hnb2
          rw [hr2]
          cases o2 with
          | none => exact ⟨(none, s3), rfl, Or.inr hadv3⟩
          | some rhs1 =>
            have hlt3 : unread s3.lex < unread s.lex :=
              lt_of_le_of_lt (NotBehind_unread hnb2) hlt2
            obtain ⟨r3, hr3, hnb3⟩ := hBin _ hlt3 p
              (.BinaryAST (to_string s.current_token) LHS rhs1) f (by omega)
            exact ⟨r3, hr3, Or.inr (Advanced_NotBehind hadv3 hnb3)⟩
        · simp only [if_neg hnext]
          obtain ⟨r3, hr3, hnb3⟩ := hBin _ hlt2 p
            (.BinaryAST (to_string s.current_token) LHS rhs) f (by omega)
          exact ⟨r3, hr3, Or.inr (Advanced_NotBehind hadv2 hnb3)⟩
    · obtain ⟨k, rfl⟩ : ∃ k, f = k + 1 := ⟨f - 1, by omega⟩
      rw [base_parser_at_EOF_TOKEN k _ heof]
      exact ⟨(none, next_token s), rfl, Or.inr hadv⟩

theorem ParanReturns_step (s : ParserState)
    (hE : ∀ s1 : ParserState, unread s1.lex < unread s.lex → ExpressionReturns s1) :
    ParanReturns s := by
  intro fuel hf
  obtain ⟨f, rfl⟩ : ∃ f, fuel = f + 1 := ⟨fuel - 1, by omega⟩
  rw [paran_parser_fn]
  have hadv := Advanced_next_token s
  rcases hadv.2 with hdec | heof
  · obtain ⟨r1, hr1, hnb1, _⟩ := hE _ hdec f (by omega)
    obtain ⟨o, s2⟩ := r1
    have hadv2 : Advanced s s2 := Advanced_NotBehind hadv hnb1
    simp only [hr1]
    cases o with
    | none => exact ⟨(none, s2), rfl, hadv2⟩
    | some v =>
      simp only
      split_ifs
      · exact ⟨(none, s2), rfl, hadv2⟩
      · exact ⟨(some v, s2), rfl, hadv2⟩
  · obtain ⟨k, rfl⟩ : ∃ k, f = k + 2 := ⟨f - 2, by omega⟩
    simp only [expression_parser_at_EOF_TOKEN k _ heof]
    exact ⟨(none, next_token s), rfl, hadv⟩

theorem IdentifierReturns_step (s : ParserState)
    (hA : ∀ s1 : ParserState, unread s1.lex < unread s.lex → ArgsReturn s1) :
    IdentifierReturns s := by
  intro fuel hf
  obtain ⟨f, rfl⟩ : ∃ f, fuel = f + 1 := ⟨fuel - 1, by omega⟩
  rw [identifier_parser_fn]
  have hadv := Advanced_next_token s
  have hadv2 : Advanced s (next_token (next_token s)) :=
    Advanced_trans hadv (Advanced_next_token _)
  simp only
  by_cases h40 : (next_token s).current_token = 40
  · have hdec : unread (next_token s).lex < unread s.lex :=
      Advanced_lt_of_token hadv (by rw [h40]; decide)
    have hdec2 : unread (next_token (next_token s)).lex < unread s.lex :=
      lt_of_le_of_lt (Advanced_next_token (next_token s)).1 hdec
    simp only [h40, ne_eq, not_true_eq_false, if_false]
    by_cases h41 : (next_token (next_token s)).current_token = 41
    · simp only [h41, not_true_eq_false, if_false]
      exact ⟨_, rfl, Advanced_trans hadv2 (Advanced_next_token _)⟩
    · simp only [h41, not_false_eq_true, if_true]
      obtain ⟨r1, hr1, hnb1⟩ := hA _ hdec2 [] f (by omega)
      obtain ⟨o, s3⟩ := r1
      have hadv3 : Advanced s s3 := Advanced_NotBehind hadv2 hnb1
      rw [hr1]
      cases o with
      | none => exact ⟨(none, s3), rfl, hadv3⟩
      | some args => exact ⟨_, rfl, Advanced_trans hadv3 (Advanced_next_token _)⟩
  · simp only [ne_eq, h40, not_false_eq_true, if_true]
    exact ⟨_, rfl, hadv⟩

theorem BaseReturns_step (s : ParserState) (hI : IdentifierReturns s) (hP : ParanReturns s) :
    BaseReturns s := by
  intro fuel hf
  obtain ⟨f, rfl⟩ : ∃ f, fuel = f + 1 := ⟨fuel - 1, by omega⟩
  rw [base_parser_fn]
  split_ifs with h1 h2 h3
  · obtain ⟨r, hr, hadv⟩ := hI f (by omega)
    exact ⟨r, hr, Or.inr hadv, fun _ => hadv⟩
  · exact ⟨numeric_parser_fn s, rfl, Or.inr (Advanced_next_token s), fun _ => Advanced_next_token s⟩
  · obtain ⟨r, hr, hadv⟩ := hP f (by omega)
    exact ⟨r, hr, Or.inr hadv, fun _ => hadv⟩
  · exact ⟨(none, s), rfl, NotBehind_refl s, fun h => absurd h (by simp)⟩

theorem ExpressionReturns_step (s : ParserState) (hB : BaseReturns s)
    (hBin : ∀ s1 : ParserState, unread s1.lex ≤ unread s.lex → BinaryOpReturns s1) :
    ExpressionReturns s := by
  intro fuel hf
  obtain ⟨f, rfl⟩ : ∃ f, fuel = f + 1 := ⟨fuel - 1, by omega⟩
  rw [expression_parser_fn]
  obtain ⟨r1, hr1, hnb1, hsome1⟩ := hB f (by omega)
  obtain ⟨o, s1⟩ := r1
  rw [hr1]
  cases o with
  | none => exact ⟨(none, s1), rfl, hnb1, fun h => absurd h (by simp)⟩
  | some LHS =>
    have hadv1 : Advanced s s1 := hsome1 rfl
    obtain ⟨r2, hr2, hnb2⟩ := hBin s1 hadv1.1 0 LHS f (by have := hadv1.1; omega)
    exact ⟨r2, hr2, Or.inr (Advanced_NotBehind hadv1 hnb2), fun _ => Advanced_NotBehind hadv1 hnb2⟩

theorem ArgsReturn_step (s : ParserState) (hE : ExpressionReturns s)
    (hA : ∀ s1 : ParserState, unread s1.lex < unread s.lex → ArgsReturn s1) :
    ArgsReturn s := by
  intro args fuel hf
  obtain ⟨f, rfl⟩ : ∃ f, fuel = f + 1 := ⟨fuel - 1, by omega⟩
  rw [identifier_args]
  obtain ⟨r1, hr1, hnb1, hsome1⟩ := hE f (by omega)
  obtain ⟨o, s1⟩ := r1
  rw [hr1]
  cases o with
  | none => exact ⟨(none, s1), rfl, hnb1⟩
  | some arg =>
    have hadv1 : Advanced s s1 := hsome1 rfl
    simp only
    split_ifs with h41 h44
    · exact ⟨_, rfl, hnb1⟩
    · exact ⟨_, rfl, hnb1⟩
    · have h44' : s1.current_token = 44 := not_not.mp h44
      have hdec : unread s1.lex < unread s.lex :=
        Advanced_lt_of_token hadv1 (by rw [h44']; decide)
      have hdec2 : unread (next_token s1).lex < unread s.lex :=
        lt_of_le_of_lt (Advanced_next_token s1).1 hdec
      obtain ⟨r2, hr2, hnb2⟩ := hA _ hdec2 (args ++ [arg]) f (by omega)
      exact ⟨r2, hr2,
        Or.inr (Advanced_NotBehind (Advanced_trans hadv1 (Advanced_next_token s1)) hnb2)⟩

/-- All six parser functions return from every state, given fuel in
proportion to the number of unread characters. -/
theorem parser_returns : ∀ (n : Nat) (s : ParserState), unread s.lex < n →
    BaseReturns s ∧ IdentifierReturns s ∧ ArgsReturn s ∧ ExpressionReturns s ∧
      BinaryOpReturns s ∧ ParanReturns s := by
  intro n
  induction n with
  | zero => intro s h; omega
  | succ n ih =>
    have hBin : ∀ s : ParserState, unread s.lex < n + 1 → BinaryOpReturns s := fun s hs =>
      BinaryOpReturns_step s (fun s1 h1 => (ih s1 (by omega)).1)
        (fun s1 h1 => (ih s1 (by omega)).2.2.2.2.1)
    intro s hs
    have hP : ParanReturns s :=
      ParanReturns_step s (fun s1 h1 => (ih s1 (by omega)).2.2.2.1)
    have hI : IdentifierReturns s :=
      IdentifierReturns_step s (fun s1 h1 => (ih s1 (by omega)).2.2.1)
    have hB : BaseReturns s := BaseReturns_step s hI hP
    have hE : ExpressionReturns s :=
      ExpressionReturns_step s hB (fun s1 h1 => hBin s1 (by omega))
    have hA : ArgsReturn s :=
      ArgsReturn_step s hE (fun s1 h1 => (ih s1 (by omega)).2.2.1)
    exact ⟨hB, hI, hA, hE, hBin s hs, hP⟩

theorem ExpressionReturns_all (s : ParserState) : ExpressionReturns s :=
  (parser_returns (unread s.lex + 1) s (Nat.lt_succ_self _)).2.2.2.1

/-- The loop of `func_decl_parser` returns, the parser advanced. -/
theorem func_decl_args_returns : ∀ (n : Nat) (s : ParserState), unread s.lex < n →
    ∀ (names : List String) (fuel : Nat), unread s.lex + 1 ≤ fuel →
      ∃ r, func_decl_args fuel names s = some r ∧ Advanced s r.2 := by
  intro n
  induction n with
  | zero => intro s h; omega
  | succ n ih =>
    intro s hs names fuel hf
    obtain ⟨f, rfl⟩ : ∃ f, fuel = f + 1 := ⟨fuel - 1, by omega⟩
    rw [func_decl_args]
    have hadv := Advanced_next_token s
    split_ifs with h
    · have hdec : unread (next_token s).lex < unread s.lex :=
        Advanced_lt_of_token hadv (by rw [h]; decide)
      obtain ⟨r, hr, hadv2⟩ := ih (next_token s) (by omega)
        (names ++ [(next_token s).lex.identifier_string]) f (by omega)
      exact ⟨r, hr, Advanced_trans hadv hadv2⟩
    · exact ⟨_, rfl, hadv⟩

theorem func_decl_parser_returns (s : ParserState) (fuel : Nat)
    (hf : unread s.lex + 1 ≤ fuel) :
    ∃ r, func_decl_parser_fn fuel s = some r ∧ NotBehind s r.2 := by
  unfold func_decl_parser_fn
  have hadv := Advanced_next_token s
  split_ifs with h1
  · exact ⟨_, rfl, NotBehind_refl s⟩
  dsimp only
  split_ifs with h2
  · exact ⟨_, rfl, Or.inr hadv⟩
  · obtain ⟨r, hr, hadv2⟩ := func_decl_args_returns (unread (next_token s).lex + 1)
      (next_token s) (Nat.lt_succ_self _) [] fuel (by have := hadv.1; omega)
    obtain ⟨names, s2⟩ := r
    have hadv3 : Advanced s s2 := Advanced_trans hadv hadv2
    rw [hr]
    simp only
    split_ifs
    · exact ⟨_, rfl, Or.inr hadv3⟩
    · exact ⟨_, rfl, Or.inr (Advanced_trans hadv3 (Advanced_next_token s2))⟩

/-- The parser `func_defn_parser` returns, the parser advanced. -/
theorem func_defn_parser_returns (s : ParserState) (fuel : Nat)
    (hf : 5 * unread s.lex + 5 ≤ fuel) :
    ∃ r, func_defn_parser_fn fuel s = some r ∧ Advanced s r.2 := by
  unfold func_defn_parser_fn
  have hadv := Advanced_next_token s
  obtain ⟨r1, hr1, hnb1⟩ := func_decl_parser_returns (next_token s) fuel
    (by have := hadv.1; omega)
  obtain ⟨o, s2⟩ := r1
  have hadv2 : Advanced s s2 := Advanced_NotBehind hadv hnb1
  simp only [hr1]
  cases o with
  | none => exact ⟨_, rfl, hadv2⟩
  | some decl =>
    obtain ⟨r2, hr2, hnb2, _⟩ := ExpressionReturns_all s2 fuel (by have := hadv2.1; omega)
    obtain ⟨o2, s3⟩ := r2
    have hadv3 : Advanced s s3 := Advanced_NotBehind hadv2 hnb2
    simp only [hr2]
    cases o2 with
    | none => exact ⟨_, rfl, hadv3⟩
    | some body => exact ⟨_, rfl, hadv3⟩

/-- The parser `top_level_parser` returns, the parser not behind, and advanced
when a definition is returned. -/
theorem top_level_parser_returns (s : ParserState) (fuel : Nat)
    (hf : 5 * unread s.lex + 5 ≤ fuel) :
    ∃ r, top_level_parser_fn fuel s = some r ∧ NotBehind s r.2 ∧
      (r.1.isSome = true → Advanced s r.2) := by
  unfold top_level_parser_fn
  obtain ⟨r1, hr1, hnb1, hsome1⟩ := ExpressionReturns_all s fuel hf
  obtain ⟨o, s1⟩ := r1
  rw [hr1]
  cases o with
  | none => exact ⟨_, rfl, hnb1, fun h => absurd h (by simp)⟩
  | some E => exact ⟨_, rfl, hnb1, fun _ => hsome1 rfl⟩

theorem handleUnit_parser_state (parsed : Option FunctionDefnAST × ParserState) (s : ProgramState) :
    (handleUnit parsed s).2.parser = if parsed.1.isSome then parsed.2 else next_token parsed.2 := by
  obtain ⟨o, p⟩ := parsed
  cases o with
  | none => rfl
  | some f =>
    simp only [handleUnit]
    cases hgen : f.codeGen s.gen with
    | mk r g => cases r <;> rfl

/-- A call of `handleDefn` returns and leaves the parser advanced, whether
the unit parses or not and whatever its generation gives. -/
theorem handleDefn_returns (s : ProgramState) (fuel : Nat)
    (hf : 5 * unread s.parser.lex + 5 ≤ fuel) :
    ∃ r, handleDefn fuel s = some r ∧ Advanced s.parser r.2.parser := by
  obtain ⟨p, hp, hadv⟩ := func_defn_parser_returns s.parser fuel hf
  refine ⟨handleUnit p s, by simp [handleDefn, hp], ?_⟩
  rw [handleUnit_parser_state]
  split_ifs
  · exact hadv
  · exact Advanced_trans hadv (Advanced_next_token _)

/-- A call of `handleTopExpression` returns and leaves the parser advanced,
whether the unit parses or not and whatever its generation gives. -/
theorem handleTopExpression_returns (s : ProgramState) (fuel : Nat)
    (hf : 5 * unread s.parser.lex + 5 ≤ fuel) :
    ∃ r, handleTopExpression fuel s = some r ∧ Advanced s.parser r.2.parser := by
  obtain ⟨p, hp, hnb, hsome⟩ := top_level_parser_returns s.parser fuel hf
  refine ⟨handleUnit p s, by simp [handleTopExpression, hp], ?_⟩
  rw [handleUnit_parser_state]
  split_ifs with h
  · exact hsome h
  · exact NotBehind_Advanced hnb (Advanced_next_token _)

/-- The loop of `driver` ends from every state. -/
theorem driver_returns : ∀ (n : Nat) (s : ProgramState), unread s.parser.lex < n →
    ∀ (fuel : Nat), 6 * unread s.parser.lex + 7 ≤ fuel → ∃ out, driver fuel s = some out := by
  intro n
  induction n with
  | zero => intro s h; omega
  | succ n ih =>
    have next : ∀ (s : ProgramState) (s1 : ProgramState) (f : Nat),
        unread s.parser.lex < n + 1 → 6 * unread s.parser.lex + 6 ≤ f →
        Advanced s.parser s1.parser → ∃ out, driver f s1 = some out := by
      intro s s1 f hs hf hadv
      by_cases ht : s1.parser.current_token = EOF_TOKEN
      · obtain ⟨k, rfl⟩ : ∃ k, f = k + 1 := ⟨f - 1, by omega⟩
        exact ⟨.returned s1, by rw [driver, if_pos ht]⟩
      · have hdec := Advanced_lt_of_token hadv ht
        exact ih s1 (by omega) f (by omega)
    intro s hs fuel hf
    obtain ⟨f, rfl⟩ : ∃ f, fuel = f + 1 := ⟨fuel - 1, by omega⟩
    rw [driver]
    split_ifs with h1 h2 h3
    · exact ⟨_, rfl⟩
    · exact next s { s with parser := next_token s.parser } f hs (by omega)
        (Advanced_next_token s.parser)
    · obtain ⟨r, hr, hadv⟩ := handleDefn_returns s f (by omega)
      obtain ⟨g, s1⟩ := r
      rw [hr]
      cases g with
      | ok v => exact next s s1 f hs (by omega) hadv
      | null e => exact ⟨_, rfl⟩
      | undefined => exact ⟨_, rfl⟩
    · obtain ⟨r, hr, hadv⟩ := handleTopExpression_returns s f (by omega)
      obtain ⟨g, s1⟩ := r
      rw [hr]
      cases g with
      | ok v => exact next s s1 f hs (by omega) hadv
      | null e => exact ⟨_, rfl⟩
      | undefined => exact ⟨_, rfl⟩

/-- One turn of the loop of `driver`: it returns at `EOF_TOKEN`, and otherwise
goes on, or ends, in a state whose parser has advanced. -/
theorem driver_turn (s : ProgramState) (fuel : Nat)
    (hf : 5 * unread s.parser.lex + 5 ≤ fuel) :
    (s.parser.current_token = EOF_TOKEN ∧ driver (fuel + 1) s = some (.returned s)) ∨
      ∃ s1, Advanced s.parser s1.parser ∧
        (driver (fuel + 1) s = driver fuel s1 ∨ driver (fuel + 1) s = some (.undefined s1)) := by
  rw [driver]
  split_ifs with h1 h2 h3
  · exact Or.inl ⟨h1, rfl⟩
  · exact Or.inr ⟨_, Advanced_next_token s.parser, Or.inl rfl⟩
  · obtain ⟨r, hr, hadv⟩ := handleDefn_returns s fuel hf
    obtain ⟨g, s1⟩ := r
    rw [hr]
    cases g with
    | ok v => exact Or.inr ⟨s1, hadv, Or.inl rfl⟩
    | null e => exact Or.inr ⟨s1, hadv, Or.inr rfl⟩
    | undefined => exact Or.inr ⟨s1, hadv, Or.inr rfl⟩
  · obtain ⟨r, hr, hadv⟩ := handleTopExpression_returns s fuel hf
    obtain ⟨g, s1⟩ := r
    rw [hr]
    cases g with
    | ok v => exact Or.inr ⟨s1, hadv, Or.inl rfl⟩
    | null e => exact Or.inr ⟨s1, hadv, Or.inr rfl⟩
    | undefined => exact Or.inr ⟨s1, hadv, Or.inr rfl⟩

theorem unread_initialState (input : List Char) :
    unread (next_token (initialState input)).lex ≤ input.length + 1 := by
  have h := (Advanced_next_token (initialState input)).1
  have : unread (initialState input).lex = input.length + 1 := by
    simp [unread, pending, initialState, EOF]
  omega

/-- The run of `main` ends on every input. -/
theorem main_returns (input : List Char) (fuel : Nat) (hf : 6 * input.length + 13 ≤ fuel) :
    ∃ out, main fuel input = some out := by
  have h := unread_initialState input
  exact driver_returns _ _ (Nat.lt_succ_self _) fuel (by simp only; omega)

/-- Claim C17: the driver terminates on every finite input.  With fuel in
proportion to the length of the input the run of `main` ends; a turn of the
loop of `driver` returns when the current token is `EOF_TOKEN` and otherwise
goes on, or ends, with the parser advanced (fewer characters unread, or the
current token `EOF_TOKEN`), and so do `handleDefn` and `handleTopExpression`
whether their unit parses or not; `func_defn_parser` and `expression_parser`
return, not behind where they started; `get_token` needs no more fuel than
the length of its source, and leaves no more characters unread than it found. -/
theorem driver_terminates (input : List Char) (s : ProgramState) (k : Nat) :
    (∃ out, main (6 * input.length + 13 + k) input = some out) ∧
    ((s.parser.current_token = EOF_TOKEN ∧
        driver (5 * unread s.parser.lex + 5 + k + 1) s = some (.returned s)) ∨
      ∃ s1, Advanced s.parser s1.parser ∧
        (driver (5 * unread s.parser.lex + 5 + k + 1) s =
            driver (5 * unread s.parser.lex + 5 + k) s1 ∨
          driver (5 * unread s.parser.lex + 5 + k + 1) s = some (.undefined s1))) ∧
    (∃ r, handleDefn (5 * unread s.parser.lex + 5 + k) s = some r ∧
      Advanced s.parser r.2.parser) ∧
    (∃ r, handleTopExpression (5 * unread s.parser.lex + 5 + k) s = some r ∧
      Advanced s.parser r.2.parser) ∧
    (∃ r, func_defn_parser_fn (5 * unread s.parser.lex + 5 + k) s.parser = some r ∧
      Advanced s.parser r.2) ∧
    (∃ r, expression_parser_fn (5 * unread s.parser.lex + 5 + k) s.parser = some r ∧
      NotBehind s.parser r.2) ∧
    Advanced s.parser (next_token s.parser) ∧
    get_token_fuel (s.parser.lex.source.length + 1 + k) s.parser.lex = get_token s.parser.lex ∧
    unread (get_token s.parser.lex).2 ≤ unread s.parser.lex := by
  refine ⟨main_returns input _ (Nat.le_add_right _ _),
    driver_turn s _ (Nat.le_add_right _ _),
    handleDefn_returns s _ (Nat.le_add_right _ _),
    handleTopExpression_returns s _ (Nat.le_add_right _ _),
    func_defn_parser_returns s.parser _ (Nat.le_add_right _ _), ?_,
    Advanced_next_token s.parser,
    get_token_fuel_eq _ _ _ (by omega) (by omega),
    (unread_get_token s.parser.lex).1⟩
  obtain ⟨r, hr, hnb, _⟩ := ExpressionReturns_all s.parser _ (Nat.le_add_right _ k)
  exact ⟨r, hr, hnb⟩

end Toy
